import Mathlib

/-!
Verification development for the tool-calling turn protocol of the
local-private-llm application: the response parser (`parseToolResponse`),
the truthfulness ledger (`createLedger`, `recordInvocation`,
`webSearchSucceeded`, `getLastWebSearchResult`, `getWebSourcesFromLedger`,
`hasFakeWebSearchClaim`, `buildProvenanceFooter`) and the stream-completion
handler of the turn orchestrator (`handleDone`).

The embedding is shallow: the TypeScript sources are translated function by
function into total Lean definitions. JavaScript strings are modelled as
`String`/`List Char` (ASCII-level: the Unicode extras of JS `\s` and
`String.prototype.trim` beyond the common ASCII whitespace are not modelled);
`JSON.parse` is modelled by a fuel-based parser of the RFC 8259 grammar
returning an exact decimal `num` (mantissa and base-10 exponent, so no
float rounding); `Date.now()` and `new Date().toISOString()` are modelled by
explicit arguments, since the source reads ambient time.
-/

/-! ## Character classes and basic string helpers -/

/-- Whitespace as JavaScript's `\s` and `String.prototype.trim` see it,
restricted to the ASCII range (space, tab, newline, carriage return,
vertical tab, form feed). -/
def isSpaceJS (c : Char) : Bool :=
  c = ' ' || c = '\t' || c = '\n' || c = '\r' || c = '\x0b' || c = '\x0c'

/-- Whitespace of the JSON grammar (RFC 8259): space, tab, newline, return. -/
def jsonWs (c : Char) : Bool :=
  c = ' ' || c = '\t' || c = '\n' || c = '\r'

def isDigitCh (c : Char) : Bool := '0' ≤ c && c ≤ '9'

/-- ASCII lower-casing, for the case-insensitive `/i` regexes. -/
def lowerCh (c : Char) : Char :=
  if 'A' ≤ c && c ≤ 'Z' then Char.ofNat (c.toNat + 32) else c

/-- Word characters of JavaScript's `\w` and `\b`: letters, digits, underscore. -/
def isWordCh (c : Char) : Bool :=
  ('a' ≤ c && c ≤ 'z') || ('A' ≤ c && c ≤ 'Z') || isDigitCh c || c = '_'

/-- Drop leading JS whitespace. -/
def trimLeftL (cs : List Char) : List Char := cs.dropWhile isSpaceJS

/-- Drop trailing JS whitespace. -/
def trimRightL (cs : List Char) : List Char :=
  (cs.reverse.dropWhile isSpaceJS).reverse

/-- The model of JavaScript `String.prototype.trim` on character lists. -/
def trimL (cs : List Char) : List Char :=
  trimRightL (trimLeftL cs)

/-- Model of `String.prototype.trim`. -/
def trimS (s : String) : String := ⟨trimL s.toList⟩

/-- Does `pat` occur as a prefix of `cs`? -/
def isPrefixL (pat cs : List Char) : Bool :=
  match pat, cs with
  | [], _ => true
  | _ :: _, [] => false
  | p :: ps, c :: rest => p = c && isPrefixL ps rest

/-- Does `pat` occur as a contiguous substring of `cs`? -/
def containsL (pat cs : List Char) : Bool :=
  match cs with
  | [] => isPrefixL pat []
  | _ :: rest => isPrefixL pat cs || containsL pat rest

/-- Substring occurrence on strings. -/
def containsS (pat s : String) : Bool := containsL pat.toList s.toList

/-- Join a list of character lists with a separator (JS `Array.join`). -/
def joinSepL (sep : List Char) : List (List Char) → List Char
  | [] => []
  | [x] => x
  | x :: y :: rest => x ++ sep ++ joinSepL sep (y :: rest)

/-- JS `Array.prototype.join` on strings. -/
def joinSepS (sep : String) (xs : List String) : String :=
  ⟨joinSepL sep.toList (xs.map String.toList)⟩

/-! ## JSON values and the model of `JSON.parse`

`Json.num m e` denotes the decimal value `m * 10 ^ e`, exactly; JavaScript
would round it to a binary float, a difference that no compared field in
this development can observe (only `=== 0` tests and `typeof` checks reach
numbers). -/

inductive Json where
  | nul : Json
  | bool (b : Bool) : Json
  | num (mant : Int) (exp : Int) : Json
  | str (s : String) : Json
  | arr (elems : List Json) : Json
  | obj (members : List (String × Json)) : Json

mutual

/-- Boolean equality on JSON values (the nested inductive defeats deriving). -/
def Json.beq : Json → Json → Bool
  | .nul, .nul => true
  | .bool a, .bool b => a = b
  | .num m e, .num m2 e2 => m = m2 && e = e2
  | .str s, .str t => s = t
  | .arr xs, .arr ys => Json.beqList xs ys
  | .obj xs, .obj ys => Json.beqMembers xs ys
  | _, _ => false

def Json.beqList : List Json → List Json → Bool
  | [], [] => true
  | x :: xs, y :: ys => Json.beq x y && Json.beqList xs ys
  | _, _ => false

def Json.beqMembers : List (String × Json) → List (String × Json) → Bool
  | [], [] => true
  | (k, x) :: xs, (l, y) :: ys => k = l && Json.beq x y && Json.beqMembers xs ys
  | _, _ => false

end

mutual

def Json.beq_iff : ∀ a b : Json, Json.beq a b = true ↔ a = b
  | .nul, b => by cases b <;> simp [Json.beq]
  | .bool a, b => by cases b <;> simp [Json.beq]
  | .num m e, b => by cases b <;> simp [Json.beq]
  | .str s, b => by cases b <;> simp [Json.beq]
  | .arr xs, b => by
    cases b <;> simp [Json.beq]
    exact Json.beqList_iff xs _
  | .obj xs, b => by
    cases b <;> simp [Json.beq]
    exact Json.beqMembers_iff xs _

def Json.beqList_iff : ∀ xs ys : List Json, Json.beqList xs ys = true ↔ xs = ys
  | [], ys => by cases ys <;> simp [Json.beqList]
  | x :: xs, ys => by
    cases ys with
    | nil => simp [Json.beqList]
    | cons y ys =>
      simp [Json.beqList, Bool.and_eq_true, Json.beq_iff x y, Json.beqList_iff xs ys]

def Json.beqMembers_iff :
    ∀ xs ys : List (String × Json), Json.beqMembers xs ys = true ↔ xs = ys
  | [], ys => by cases ys <;> simp [Json.beqMembers]
  | (k, x) :: xs, ys => by
    cases ys with
    | nil => simp [Json.beqMembers]
    | cons p ys =>
      obtain (⟨l, y⟩) := p
      simp [Json.beqMembers, Bool.and_eq_true, Json.beq_iff x y,
        Json.beqMembers_iff xs ys, and_assoc]

end

instance : DecidableEq Json := fun a b => decidable_of_iff _ (Json.beq_iff a b)

def Json.isNum : Json → Bool
  | .num _ _ => true
  | _ => false

def Json.isObj : Json → Bool
  | .obj _ => true
  | _ => false

/-- Property access on a parsed JSON object. `JSON.parse` keeps the last of
several members with the same key, hence the reversed lookup. -/
def getField (j : Json) (key : String) : Option Json :=
  match j with
  | .obj members => (members.reverse.lookup key)
  | _ => none

def hexDigitVal (c : Char) : Option Nat :=
  if isDigitCh c then some (c.toNat - 48)
  else if 'a' ≤ c && c ≤ 'f' then some (c.toNat - 87)
  else if 'A' ≤ c && c ≤ 'F' then some (c.toNat - 55)
  else none

def escCh (c : Char) : Option Char :=
  if c = '"' then some '"'
  else if c = '\\' then some '\\'
  else if c = '/' then some '/'
  else if c = 'b' then some (Char.ofNat 8)
  else if c = 'f' then some (Char.ofNat 12)
  else if c = 'n' then some '\n'
  else if c = 'r' then some '\r'
  else if c = 't' then some '\t'
  else none

/-- Body of a JSON string literal, after the opening quote: returns the
decoded characters and the input after the closing quote. Control
characters below U+0020 must be escaped; `\uXXXX` yields the scalar value
(lone surrogates, which Lean's `Char` cannot carry, fall back like
`Char.ofNat` does — outside the ASCII scope of this model). -/
def strBody (acc : List Char) : List Char → Option (List Char × List Char)
  | [] => none
  | c :: rest =>
    if c = '"' then some (acc.reverse, rest)
    else if c = '\\' then
      match rest with
      | [] => none
      | e :: rest2 =>
        if e = 'u' then
          match rest2 with
          | a :: b :: c2 :: d :: rest3 =>
            match hexDigitVal a, hexDigitVal b, hexDigitVal c2, hexDigitVal d with
            | some va, some vb, some vc, some vd =>
              strBody (Char.ofNat (((va * 16 + vb) * 16 + vc) * 16 + vd) :: acc) rest3
            | _, _, _, _ => none
          | _ => none
        else
          match escCh e with
          | some ch => strBody (ch :: acc) rest2
          | none => none
    else if c.toNat < 32 then none
    else strBody (c :: acc) rest

def digitsToInt (ds : List Char) : Int :=
  (ds.foldl (fun acc c => acc * 10 + (c.toNat - '0'.toNat)) 0 : Nat)

/-- The optional exponent part of a JSON number literal, given the sign, the
mantissa digits and the exponent contributed by the fraction. -/
def numExpPart (neg : Bool) (mds : List Char) (fexp : Int) (cs3 : List Char) :
    Option (Int × Int × List Char) :=
  match cs3 with
  | c :: r =>
    if c = 'e' || c = 'E' then
      let (sgn, r1) : Int × List Char :=
        match r with
        | [] => (1, [])
        | c2 :: r2 =>
          if c2 = '+' then (1, r2)
          else if c2 = '-' then (-1, r2)
          else (1, c2 :: r2)
      let eds := r1.takeWhile isDigitCh
      if eds.isEmpty then none
      else
        some ((if neg then -1 else 1) * digitsToInt mds,
          fexp + sgn * digitsToInt eds, r1.dropWhile isDigitCh)
    else some ((if neg then -1 else 1) * digitsToInt mds, fexp, c :: r)
  | [] => some ((if neg then -1 else 1) * digitsToInt mds, fexp, [])

/-- A JSON number literal: optional minus, integer digits with no leading
zero, optional fraction, optional exponent. Returns mantissa, base-10
exponent and the rest of the input. -/
def numLitBody (neg : Bool) (cs1 : List Char) : Option (Int × Int × List Char) :=
  let ids := cs1.takeWhile isDigitCh
  let cs2 := cs1.dropWhile isDigitCh
  if ids.isEmpty then none
  else if ids.headD '0' = '0' && ids.length > 1 then none
  else
    match cs2 with
    | c :: r =>
      if c = '.' then
        let fds := r.takeWhile isDigitCh
        if fds.isEmpty then none
        else numExpPart neg (ids ++ fds) (-(fds.length : Int)) (r.dropWhile isDigitCh)
      else numExpPart neg ids 0 (c :: r)
    | [] => numExpPart neg ids 0 []

def numLit (cs : List Char) : Option (Int × Int × List Char) :=
  match cs with
  | [] => numLitBody false []
  | c :: r => if c = '-' then numLitBody true r else numLitBody false (c :: r)

def skipJ (cs : List Char) : List Char := cs.dropWhile jsonWs

mutual

/-- One JSON value, after skipping leading JSON whitespace. Fuel makes the
mutual recursion structural; `parseJsonL` supplies `length + 1`, which a
later lemma shows is never the binding constraint on a success. -/
def jsonVal : Nat → List Char → Option (Json × List Char)
  | 0, _ => none
  | fuel + 1, cs =>
    match skipJ cs with
    | [] => none
    | c :: r =>
      if c = 'n' then
        match r with
        | 'u' :: 'l' :: 'l' :: r1 => some (.nul, r1)
        | _ => none
      else if c = 't' then
        match r with
        | 'r' :: 'u' :: 'e' :: r1 => some (.bool true, r1)
        | _ => none
      else if c = 'f' then
        match r with
        | 'a' :: 'l' :: 's' :: 'e' :: r1 => some (.bool false, r1)
        | _ => none
      else if c = '"' then
        match strBody [] r with
        | some (s, r1) => some (.str ⟨s⟩, r1)
        | none => none
      else if c = '[' then
        match skipJ r with
        | [] => none
        | c2 :: r1 =>
          if c2 = ']' then some (.arr [], r1)
          else
            match jsonElems fuel r with
            | some (es, r2) => some (.arr es, r2)
            | none => none
      else if c = '{' then
        match skipJ r with
        | [] => none
        | c2 :: r1 =>
          if c2 = '}' then some (.obj [], r1)
          else
            match jsonMembers fuel r with
            | some (ms, r2) => some (.obj ms, r2)
            | none => none
      else if c = '-' || isDigitCh c then
        match numLit (c :: r) with
        | some (m, e, r1) => some (.num m e, r1)
        | none => none
      else none

/-- One-or-more comma-separated array elements, consuming the closing `]`. -/
def jsonElems : Nat → List Char → Option (List Json × List Char)
  | 0, _ => none
  | fuel + 1, cs =>
    match jsonVal fuel cs with
    | none => none
    | some (v, r) =>
      match skipJ r with
      | [] => none
      | c :: r1 =>
        if c = ',' then
          match jsonElems fuel r1 with
          | some (vs, r2) => some (v :: vs, r2)
          | none => none
        else if c = ']' then some ([v], r1)
        else none

/-- One-or-more comma-separated object members, consuming the closing `}`. -/
def jsonMembers : Nat → List Char → Option (List (String × Json) × List Char)
  | 0, _ => none
  | fuel + 1, cs =>
    match skipJ cs with
    | [] => none
    | c0 :: r =>
      if c0 = '"' then
        match strBody [] r with
        | none => none
        | some (k, r1) =>
          match skipJ r1 with
          | [] => none
          | c1 :: r2 =>
            if c1 = ':' then
              match jsonVal fuel r2 with
              | none => none
              | some (v, r3) =>
                match skipJ r3 with
                | [] => none
                | c2 :: r4 =>
                  if c2 = ',' then
                    match jsonMembers fuel r4 with
                    | some (ms, r5) => some ((⟨k⟩, v) :: ms, r5)
                    | none => none
                  else if c2 = '}' then some ([(⟨k⟩, v)], r4)
                  else none
            else none
      else none

end

/-- The model of `JSON.parse` on character lists: one value, then only
whitespace; `none` where `JSON.parse` throws. -/
def parseJsonL (cs : List Char) : Option Json :=
  match jsonVal (cs.length + 1) cs with
  | some (v, rest) => if (skipJ rest).isEmpty then some v else none
  | none => none

/-- The model of `JSON.parse`. -/
def parseJson (s : String) : Option Json := parseJsonL s.toList

/-- The first appended character cannot extend a number token. -/
def numSafe (suf : List Char) : Bool :=
  match suf with
  | [] => true
  | c :: _ => !(isDigitCh c || c = '.' || c = 'e' || c = 'E' || c = '+' || c = '-')

/-! ## The response parser (`src/lib/toolPrompt.ts`)

`parseToolResponse` interprets raw model output as one of the two legal
intents. JavaScript's thrown `JSON.parse` errors and `null` shape-rejections
are both `none` here; every caller treats them identically (fall through to
the next parsing attempt). -/

inductive ParsedResponse where
  | tool_request (tool_name : String) (arguments : Json) : ParsedResponse
  | final_answer (content : String) : ParsedResponse
deriving DecidableEq

/-- JS `typeof x === "object" && x !== null`: objects and arrays. -/
def jsIsObjectType : Json → Bool
  | .obj _ => true
  | .arr _ => true
  | _ => false

/-- The shape check of `parseOneJsonObject` on the parsed document. A
missing or non-object `arguments` becomes the empty object, as in the
source. -/
def intentOfJson (j : Json) : Option ParsedResponse :=
  (if getField j "type" = some (.str "tool_request") then
    match getField j "tool_name" with
    | some (.str name) =>
      let args : Json := match getField j "arguments" with
        | some a => if jsIsObjectType a then a else .obj []
        | none => .obj []
      some (.tool_request name args)
    | _ =>
      match getField j "content" with
      | some (.str c) =>
        if getField j "type" = some (.str "final_answer") then
          some (.final_answer c)
        else none
      | _ => none
  else if getField j "type" = some (.str "final_answer") then
    match getField j "content" with
    | some (.str c) => some (.final_answer c)
    | _ => none
  else none)

/-- Model of `parseOneJsonObject`: parse one JSON document and check its
shape. -/
def parseOneJsonObject (s : String) : Option ParsedResponse :=
  match parseJson s with
  | none => none
  | some j => intentOfJson j

/-- Brace-depth scan of `extractFirstJsonObject`, from the first `{`:
returns the consumed prefix once the depth returns to zero. (The JS loop's
counter cannot go below zero when entered at a `{`, so `Nat` subtraction is
faithful here.) -/
def balancedFrom (depth : Nat) : List Char → Option (List Char)
  | [] => none
  | c :: rest =>
    if c = '{' then (balancedFrom (depth + 1) rest).map (fun l => c :: l)
    else if c = '}' then
      if depth = 1 then some [c]
      else (balancedFrom (depth - 1) rest).map (fun l => c :: l)
    else (balancedFrom depth rest).map (fun l => c :: l)

/-- Model of `extractFirstJsonObject`: the first balanced `{...}` substring,
found by brace counting from the first `{`. -/
def extractFirstJsonObjectL (cs : List Char) : Option (List Char) :=
  balancedFrom 0 (cs.dropWhile (fun c => !(c = '{')))

def extractFirstJsonObject (s : String) : Option String :=
  (extractFirstJsonObjectL s.toList).map (fun l => (⟨l⟩ : String))

def fence3 : List Char := "```".toList

/-- Split at the first occurrence of three backticks: the characters before
it and the characters after it. -/
def splitAtTicks : List Char → Option (List Char × List Char)
  | [] => none
  | c :: rest =>
    if isPrefixL fence3 (c :: rest) then some ([], rest.drop 2)
    else (splitAtTicks rest).map (fun p => (c :: p.1, p.2))

def jsonTag : List Char := "json".toList

/-- Model of matching `/```(?:json)?\s*([\s\S]*?)```/` and taking group 1:
try each occurrence of three backticks left to right as the opener, consume
an optional `json` tag, and capture lazily up to the next three backticks.
The greedy `\s*` before the group is omitted: the caller trims the capture,
which erases the difference. -/
def codeBlockCapture : List Char → Option (List Char)
  | [] => none
  | c :: rest =>
    if isPrefixL fence3 (c :: rest) then
      let afterOpen := rest.drop 2
      let p := if isPrefixL jsonTag afterOpen then afterOpen.drop 4 else afterOpen
      match splitAtTicks p with
      | some (captured, _) => some captured
      | none => codeBlockCapture rest
    else codeBlockCapture rest

/-- The first segment of `split(/\r?\n/)`: the characters before the first
newline, less one carriage return directly before it. -/
def firstSeg (cs : List Char) : List Char :=
  if cs.any (fun c => c = '\n') then
    let t := cs.takeWhile (fun c => !(c = '\n'))
    if t.getLast? = some '\r' then t.dropLast else t
  else cs

/-- Model of `parseToolResponse`: strip one fenced code block if present,
then try the whole string, then the first line when it starts with a brace,
then the first balanced brace group. -/
def parseToolResponse (raw : String) : Option ParsedResponse :=
  let t := trimL raw.toList
  let jsonStr : List Char :=
    match codeBlockCapture t with
    | some cap => trimL cap
    | none => t
  match parseOneJsonObject (⟨jsonStr⟩ : String) with
  | some out => some out
  | none =>
    let fl := trimL (firstSeg jsonStr)
    let fromLine : Option ParsedResponse :=
      if fl.headD ' ' = '{' then parseOneJsonObject (⟨fl⟩ : String) else none
    match fromLine with
    | some out => some out
    | none =>
      match extractFirstJsonObjectL jsonStr with
      | some objTxt => parseOneJsonObject (⟨objTxt⟩ : String)
      | none => none

/-! ## Fake web-search claim detection (`toolLedger.ts` regexes)

The nine `/i` regexes of `FAKE_WEB_SEARCH_PATTERNS` use only literals,
`\s+`, `\b`, alternation and optional groups, so they are embedded as a
small pattern type with an all-results matcher (existence of a match is
what `RegExp.test` reports). -/

inductive Pat where
  | lit (s : List Char) : Pat
  | ws1 : Pat
  | wb : Pat
  | opt (p : Pat) : Pat
  | alt (p q : Pat) : Pat
  | cat (p q : Pat) : Pat

def isWordOpt : Option Char → Bool
  | some c => isWordCh c
  | none => false

/-- Consume a case-insensitive literal (pattern written in lower case). -/
def litMatch : List Char → Option Char → List Char → Option (Option Char × List Char)
  | [], prev, rest => some (prev, rest)
  | p :: ps, _, c :: rest => if lowerCh c = p then litMatch ps (some c) rest else none
  | _ :: _, _, [] => none

/-- All states after consuming one or more whitespace characters. -/
def wsPlus : Option Char → List Char → List (Option Char × List Char)
  | _, c :: rest =>
    if isSpaceJS c then (some c, rest) :: wsPlus (some c) rest else []
  | _, [] => []

/-- All states reachable by matching `p` from `(prev, rest)`; `prev` is the
character before the current position, for `\b`. -/
def matchPat : Pat → Option Char → List Char → List (Option Char × List Char)
  | .lit s, prev, rest =>
    match litMatch s prev rest with
    | some st => [st]
    | none => []
  | .ws1, prev, rest => wsPlus prev rest
  | .wb, prev, rest =>
    if isWordOpt prev != isWordOpt rest.head? then [(prev, rest)] else []
  | .opt p, prev, rest => (prev, rest) :: matchPat p prev rest
  | .alt p q, prev, rest => matchPat p prev rest ++ matchPat q prev rest
  | .cat p q, prev, rest =>
    (matchPat p prev rest).flatMap (fun st => matchPat q st.1 st.2)

/-- Every position of the input, with the character before it. -/
def positionsFrom (prev : Option Char) (cs : List Char) :
    List (Option Char × List Char) :=
  (prev, cs) ::
    match cs with
    | [] => []
    | c :: rest => positionsFrom (some c) rest

/-- `RegExp.prototype.test`: does the pattern match anywhere? -/
def patTest (p : Pat) (cs : List Char) : Bool :=
  (positionsFrom none cs).any (fun st => !(matchPat p st.1 st.2).isEmpty)

def pseq (ps : List Pat) : Pat := ps.foldr Pat.cat (Pat.lit [])

def patAfterSearching : Pat :=
  pseq [.wb, .lit "after".toList, .ws1, .lit "searching".toList, .wb]

def patLookedItUp : Pat :=
  pseq [.wb, .lit "i".toList, .ws1, .lit "looked".toList, .ws1,
    .lit "it".toList, .ws1, .lit "up".toList, .wb]

def patAccordingToMyWebSearch : Pat :=
  pseq [.wb, .lit "according".toList, .ws1, .lit "to".toList, .ws1,
    .lit "my".toList, .ws1, .lit "web".toList, .ws1, .lit "search".toList, .wb]

def patFoundOnline : Pat :=
  pseq [.wb, .lit "i".toList, .ws1, .lit "found".toList, .ws1,
    .lit "online".toList, .wb]

def patMySearch : Pat :=
  pseq [.wb, .lit "my".toList, .ws1, .lit "search".toList, .ws1,
    .alt (.cat (.lit "result".toList) (.opt (.lit "s".toList)))
      (.lit "found".toList), .wb]

def patSearchResultsShow : Pat :=
  pseq [.wb, .lit "search".toList, .ws1, .lit "result".toList,
    .opt (.lit "s".toList), .ws1,
    .alt (.lit "show".toList) (.lit "indicate".toList), .wb]

def patFromTheWeb : Pat :=
  pseq [.wb, .alt (.lit "from".toList) (.lit "according to".toList), .ws1,
    .opt (.cat (.lit "the".toList) .ws1),
    .alt (.lit "web".toList) (.lit "internet".toList), .wb]

def patQuickSearch : Pat :=
  pseq [.wb, .opt (.cat (.lit "a".toList) .ws1), .lit "quick".toList, .ws1,
    .lit "search".toList, .ws1,
    .alt (.lit "shows".toList) (.lit "reveals".toList), .wb]

def patSearchedTheWeb : Pat :=
  pseq [.wb, .opt (.cat (.lit "i".toList) .ws1), .lit "searched".toList, .ws1,
    .opt (.cat (.lit "the".toList) .ws1),
    .alt (.lit "web".toList) (.lit "internet".toList), .wb]

def FAKE_WEB_SEARCH_PATTERNS : List Pat :=
  [patAfterSearching, patLookedItUp, patAccordingToMyWebSearch, patFoundOnline,
    patMySearch, patSearchResultsShow, patFromTheWeb, patQuickSearch,
    patSearchedTheWeb]

/-- Model of `hasFakeWebSearchClaim`: trimmed non-empty text matching any of
the nine patterns. -/
def hasFakeWebSearchClaim (text : String) : Bool :=
  let normalized := trimL text.toList
  if normalized.isEmpty then false
  else FAKE_WEB_SEARCH_PATTERNS.any (fun p => patTest p normalized)

/-! ## The truthfulness ledger (`src/lib/toolLedger.ts`) -/

inductive ToolStatus where
  | success : ToolStatus
  | error : ToolStatus
deriving DecidableEq

structure InvokedToolEntry where
  name : String
  args : Json
  status : ToolStatus
  started_at : Int
  finished_at : Int
  result_summary : String
deriving DecidableEq

structure ToolLedger where
  available_tools : List String
  invoked_tools : List InvokedToolEntry
  tool_outputs : List String
deriving DecidableEq

def createLedger (availableToolNames : List String) : ToolLedger :=
  { available_tools := availableToolNames, invoked_tools := [], tool_outputs := [] }

/-- Model of `recordInvocation`. The source mutates the ledger; here the
updated ledger is returned. `now` models `Date.now()` (milliseconds); the
start timestamp is synthesized as fifty milliseconds earlier, exactly as in
the source. -/
def recordInvocation (ledger : ToolLedger) (name : String) (args : Json)
    (status : ToolStatus) (resultSummary : String) (rawOutput : String)
    (now : Int) : ToolLedger :=
  { ledger with
    invoked_tools := ledger.invoked_tools ++
      [{ name := name, args := args, status := status, started_at := now - 50,
         finished_at := now, result_summary := resultSummary }],
    tool_outputs := ledger.tool_outputs ++ [rawOutput] }

/-- Model of `webSearchSucceeded`. -/
def webSearchSucceeded (ledger : ToolLedger) : Bool :=
  ledger.invoked_tools.any (fun t => t.name == "web_search" && t.status == .success)

/-- The fields of the parsed `web_search` output that the ledger reads:
`result_count` (an exact decimal `mant * 10 ^ exp`), the raw `results`
array, and the raw `provider` field. -/
structure WebSearchParsed where
  result_count_mant : Int
  result_count_exp : Int
  results : List Json
  provider : Option Json
deriving DecidableEq

/-- Model of `parseWebSearchOutput`: empty and non-`{`-leading raw output is
rejected, then the JSON must parse with a numeric `result_count` and an
array `results`. Never throws: parse failure is `none`. -/
def parseWebSearchOutput (raw : String) : Option WebSearchParsed :=
  if raw = "" then none
  else
    let trimmed := trimS raw
    if !(trimmed.toList.headD ' ' == '{') then none
    else
      match parseJson trimmed with
      | none => none
      | some j =>
        match getField j "result_count", getField j "results" with
        | some (.num m e), some (.arr rs) =>
          some { result_count_mant := m, result_count_exp := e, results := rs,
                 provider := getField j "provider" }
        | _, _ => none

/-- The `url` of one element of `results`, as the source reads it
(`r?.url` followed by a truthiness filter, so the empty string is dropped).
Non-string truthy `url` values, which the backend never produces, are
outside this model's scope. -/
def urlOfResult (r : Json) : Option String :=
  match getField r "url" with
  | some (.str s) => if s = "" then none else some s
  | _ => none

/-- Split on `'\n'` exactly (the `/\n/` of the line scraper). -/
def splitOnNl : List Char → List (List Char)
  | [] => [[]]
  | '\n' :: rest => [] :: splitOnNl rest
  | c :: rest =>
    match splitOnNl rest with
    | s :: ss => (c :: s) :: ss
    | [] => [[c]]

/-- First match of `/https?:\/\/[^\s]+/` in a line: the earliest position
offering `http://` or `https://` followed by at least one non-whitespace
character, extended greedily. -/
def urlTokenFrom : List Char → Option (List Char)
  | [] => none
  | c :: rest =>
    if isPrefixL "https://".toList (c :: rest) &&
        !isSpaceJS (((c :: rest).drop 8).headD ' ') then
      some ("https://".toList ++ ((c :: rest).drop 8).takeWhile (fun ch => !isSpaceJS ch))
    else if isPrefixL "http://".toList (c :: rest) &&
        !isSpaceJS (((c :: rest).drop 7).headD ' ') then
      some ("http://".toList ++ ((c :: rest).drop 7).takeWhile (fun ch => !isSpaceJS ch))
    else urlTokenFrom rest

/-- The raw-text fallback of the URL extractor: scan each line for its
first URL-shaped token. -/
def scrapeUrls (raw : String) : List String :=
  (splitOnNl raw.toList).filterMap
    (fun line => (urlTokenFrom line).map (fun l => ((⟨l⟩ : String))))

/-- Each invoked entry with its raw output; a missing parallel output reads
as the empty string (`tool_outputs[i] ?? ""`). -/
def ledgerPairs (ledger : ToolLedger) : List (InvokedToolEntry × String) :=
  ledger.invoked_tools.enum.map (fun p => (p.2, ledger.tool_outputs.getD p.1 ""))

/-- `[...new Set(urls)]`: deduplicate keeping first occurrences. -/
def dedupFirst (seen : List String) : List String → List String
  | [] => []
  | x :: rest =>
    if seen.contains x then dedupFirst seen rest
    else x :: dedupFirst (x :: seen) rest

/-- Model of `getWebSourcesFromLedger`: structured `results[].url` of each
successful `web_search` invocation, with the line scraper as fallback when
structure parsing fails or yields no results; deduplicated, capped at 20. -/
def getWebSourcesFromLedger (ledger : ToolLedger) : List String :=
  let urls := (ledgerPairs ledger).flatMap (fun p =>
    if p.1.name == "web_search" && p.1.status == .success then
      match parseWebSearchOutput p.2 with
      | some parsed =>
        if !parsed.results.isEmpty then parsed.results.filterMap urlOfResult
        else scrapeUrls p.2
      | none => scrapeUrls p.2
    else [])
  (dedupFirst [] urls).take 20

structure LastWebSearchResult where
  result_count_mant : Int
  result_count_exp : Int
  provider : String
  urls : List String
deriving DecidableEq

/-- The JS test `lastWeb.result_count === 0` on the exact decimal. -/
def LastWebSearchResult.countIsZero (r : LastWebSearchResult) : Bool :=
  r.result_count_mant == 0

/-- The downward loop of `getLastWebSearchResult` over the reversed pairs:
the first (that is, newest) successful `web_search` entry whose raw output
parses is converted; entries whose output does not parse are skipped. -/
def webParsedToResult (parsed : WebSearchParsed) : LastWebSearchResult :=
  { result_count_mant := parsed.result_count_mant,
    result_count_exp := parsed.result_count_exp,
    provider := match parsed.provider with
      | some (.str s) => s
      | _ => "unknown",
    urls := parsed.results.filterMap urlOfResult }

def lastWebSearchGo : List (InvokedToolEntry × String) → Option LastWebSearchResult
  | [] => none
  | (e, raw) :: older =>
    if e.name == "web_search" && e.status == .success then
      match parseWebSearchOutput raw with
      | some parsed => some (webParsedToResult parsed)
      | none => lastWebSearchGo older
    else lastWebSearchGo older

/-- Model of `getLastWebSearchResult`. -/
def getLastWebSearchResult (ledger : ToolLedger) : Option LastWebSearchResult :=
  lastWebSearchGo (ledgerPairs ledger).reverse

/-- The fixed corrective message `CORRECTED_MESSAGE_NO_WEB_SEARCH`. -/
def CORRECTED_MESSAGE_NO_WEB_SEARCH : String :=
  "I did not perform a web search. Web search is either not enabled in this session or was not used for this response.\n\nIf you need up-to-date information from the internet, please enable the \"Web search\" tool in Settings → MCP Tools and try again. Otherwise, I can only use my training knowledge and any tools that were actually used (e.g. reading or writing files). I will not claim to have searched the web when I have not."

/-- The `Tools used:` value of the provenance footer: the invoked names
joined in invocation order, or the literal `none`. -/
def toolsUsedValue (ledger : ToolLedger) : String :=
  if ledger.invoked_tools.length > 0
  then joinSepS ", " (ledger.invoked_tools.map (fun t => t.name))
  else "none"

/-- Model of `buildProvenanceFooter`; `timestamp` models
`new Date().toISOString()`. -/
def collectedWebSources (ledger : ToolLedger) : List String :=
  if webSearchSucceeded ledger then getWebSourcesFromLedger ledger else []

def buildProvenanceFooter (ledger : ToolLedger) (timestamp : String) : String :=
  let toolsUsed := toolsUsedValue ledger
  let lastWeb := getLastWebSearchResult ledger
  let webSources := collectedWebSources ledger
  let webLine := if webSources.length > 0 then joinSepS "\n  " webSources else "None (offline)"
  let providerLine := match lastWeb with
    | some r => if r.provider ≠ "" then "- Web search provider: " ++ r.provider ++ "\n" else ""
    | none => ""
  joinSepS "\n"
    ["", "---", "Provenance",
     "- Generated at: " ++ timestamp,
     "- Tools used: " ++ toolsUsed,
     providerLine,
     "- Source URLs: " ++ (if webSources.length > 0 then "\n  " ++ webLine else webLine),
     "- Notes: This assistant cannot browse the internet unless the web_search tool is enabled and was used.",
     "---"]

/-! ## The stream-completion handler of the turn orchestrator
(`ChatView.runStreamWithMessages`, `ollama-chat-done` listener)

`handleDone` models the decision the listener takes once the stream ends:
`abortFlag` is `abortRef.current`, `hasCid` whether `cid` is non-null,
`canceled` the terminal payload's flag, `full` the accumulated buffer,
`toolsEnabled`/`toolNames` the round's tool configuration and `ledger` the
carried ledger. The returned action records what the handler does next:
which message is committed on abort, which content is emitted and saved as
the assistant message, or which arguments the tool dispatcher receives.
The tool round's later steps (recording the result, appending the two
round messages, recursing) happen after the dispatch boundary and are not
part of this model; a dispatch exception likewise ends at the boundary. -/

inductive DoneAction where
  | aborted (committed : Option String) : DoneAction
  | noOutput : DoneAction
  | emit (content : String) : DoneAction
  | dispatch (tool_name : String) (args : Json) : DoneAction
deriving DecidableEq

/-- The disclaimer prepended to write-tool content carrying an unsupported
web-search claim. -/
def writeDisclaimer : String :=
  "Note: Web search was not performed. The following is from the assistant's general knowledge or other tools.\n\n"

/-- The replacement body used when the last web search succeeded but had no
results. -/
def couldNotVerifyMsg : String :=
  "Could not verify via web_search (no explicit officeholder found)."

/-- JS `(parsed.arguments.content as string) ?? ""`: a string passes
through, anything else (absent, `null`; the protocol produces no other
type here) reads as the empty string. -/
def contentArgString (args : Json) : String :=
  match getField args "content" with
  | some (.str s) => s
  | _ => ""

/-- Object spread with one overriding member:
`{ ...args, content: v }` keeps the member positions and overrides or
appends `key`. A non-object spread (never produced here) degenerates to the
single member. -/
def setField (args : Json) (key : String) (v : Json) : Json :=
  match args with
  | .obj ms =>
    if ms.any (fun kv => kv.1 == key)
    then .obj (ms.map (fun kv => if kv.1 == key then (kv.1, v) else kv))
    else .obj (ms ++ [(key, v)])
  | _ => .obj [(key, v)]

def isWriteToolName (name : String) : Bool :=
  name == "write_file" || name == "obsidian_write_note"

/-- The content rewrite for content-writing tools (source lines 275–291):
prepend the disclaimer for an unsupported fake claim; replace the body by
the could-not-verify note when the last web search succeeded without
results; always append the provenance footer. -/
def rewriteWriteArgs (args : Json) (ledger : ToolLedger) (ts : String) : Json :=
  let body := contentArgString args
  let lastWeb := getLastWebSearchResult ledger
  let webSearchHadNoResults : Bool :=
    match lastWeb with
    | some r => r.countIsZero || r.urls.isEmpty
    | none => false
  let body2 :=
    if hasFakeWebSearchClaim body && !webSearchSucceeded ledger then
      writeDisclaimer ++ body
    else if webSearchSucceeded ledger && webSearchHadNoResults then
      couldNotVerifyMsg
    else body
  setField args "content" (.str (body2 ++ buildProvenanceFooter ledger ts))

/-- Model of the `ollama-chat-done` listener's decision (source lines
230–354). The `ts` argument models the wall-clock reading that
`buildProvenanceFooter` would take during the tool-request branch. -/
def handleDone (abortFlag hasCid canceled toolsEnabled : Bool)
    (toolNames : List String) (ledger : ToolLedger) (ts : String)
    (full : String) : DoneAction :=
  if abortFlag || !hasCid || canceled then
    .aborted (if canceled = false ∧ full ≠ "" ∧ hasCid = true then some full else none)
  else if full = "" then .noOutput
  else if toolsEnabled && !toolNames.isEmpty then
    match parseToolResponse full with
    | some (.final_answer c) =>
      .emit (if hasFakeWebSearchClaim c && !webSearchSucceeded ledger
             then CORRECTED_MESSAGE_NO_WEB_SEARCH else c)
    | some (.tool_request name args) =>
      if toolNames.contains name then
        .dispatch name (if isWriteToolName name then rewriteWriteArgs args ledger ts else args)
      else .emit full
    | none => .emit full
  else .emit full

/-! ## Fixtures: concrete values used by witnesses and counterexamples -/

/-- A structured `web_search` output as the backend returns it. -/
def webSearchOkOutput : String :=
  "\x7b\"ok\":true,\"provider\":\"duckduckgo\",\"query\":\"q\",\"results\":[\x7b\"title\":\"t\",\"snippet\":\"s\",\"url\":\"https://a.example/1\"\x7d],\"result_count\":1\x7d"

/-- One successful `web_search` invocation with a well-formed output. -/
def ledgerOneSearch : ToolLedger :=
  recordInvocation (createLedger ["web_search"]) "web_search" (.obj [])
    .success "ok" webSearchOkOutput 1000

/-- Two successful `web_search` invocations; the newest raw output is
malformed, the older one parses. -/
def ledgerStaleParse : ToolLedger :=
  recordInvocation ledgerOneSearch "web_search" (.obj []) .success "boom"
    "error: timeout" 2000

/-- Two successful `web_search` invocations, both with malformed outputs
holding no URLs: the same tool name is recorded twice and no source URL is
collected. -/
def ledgerDupNames : ToolLedger :=
  recordInvocation
    (recordInvocation (createLedger ["web_search"]) "web_search" (.obj [])
      .success "boom" "error: timeout" 1000)
    "web_search" (.obj []) .success "boom" "error: timeout" 2000

/-- The plain (non-JSON) model output of the spec's end-to-end scenario. -/
def parisClaimText : String := "After searching, the capital is Paris."

/-- A well-formed `final_answer` document whose content carries a fake
web-search claim. -/
def finalAnswerFakeClaim : String :=
  "\x7b\"type\":\"final_answer\",\"content\":\"After searching, x.\"\x7d"

def writeArgsFixture : Json :=
  .obj [("path", .str "p.txt"), ("content", .str "After searching, x.")]

/-- A well-formed `tool_request` document for `write_file` whose content
carries a fake web-search claim. -/
def toolRequestFakeClaim : String :=
  "\x7b\"type\":\"tool_request\",\"tool_name\":\"write_file\",\"arguments\":\x7b\"path\":\"p.txt\",\"content\":\"After searching, x.\"\x7d\x7d"

/-- One `createLedger`-then-`recordInvocation` step, for stating C4 over
arbitrary call sequences. -/
structure RecordCall where
  name : String
  args : Json
  status : ToolStatus
  summary : String
  raw : String
  now : Int

def applyCalls (avail : List String) (calls : List RecordCall) : ToolLedger :=
  calls.foldl
    (fun L c => recordInvocation L c.name c.args c.status c.summary c.raw c.now)
    (createLedger avail)

/-- The claim's reading of `getLastWebSearchResult` (C5): locate the most
recent successful `web_search` invocation, then parse its output or give
up. Modelled from the claim's words, for comparison with the source's scan
(which instead skips past entries whose output does not parse). -/
def lastWebSearchClaimReading (ledger : ToolLedger) : Option LastWebSearchResult :=
  match (ledgerPairs ledger).reverse.find?
      (fun p => p.1.name == "web_search" && p.1.status == .success) with
  | some (_, raw) => (parseWebSearchOutput raw).map webParsedToResult
  | none => none

/-- The claim's reading of `getLastWebSearchResult` as a scan: newest first,
converting the first successful `web_search` entry whose output parses.
Used to state the amended C5. -/
def lastWebNewestParsing (ledger : ToolLedger) : Option LastWebSearchResult :=
  (ledgerPairs ledger).reverse.findSome?
    (fun p =>
      if p.1.name == "web_search" && p.1.status == .success
      then (parseWebSearchOutput p.2).map webParsedToResult
      else none)

set_option maxRecDepth 400000

/-! ## Theorems -/

/-- C10: every `recordInvocation` appends one entry whose start timestamp is
synthesized as fifty milliseconds before the recording moment, so the
recorded duration is exactly 50 and never reflects the tool's real
execution time. -/
theorem C10_recorded_duration_constant (L : ToolLedger) (name : String)
    (args : Json) (st : ToolStatus) (summary raw : String) (now : Int) :
    ∃ e : InvokedToolEntry,
      (recordInvocation L name args st summary raw now).invoked_tools
        = L.invoked_tools ++ [e]
      ∧ e.finished_at - e.started_at = 50
      ∧ e.started_at = now - 50 ∧ e.finished_at = now :=
  ⟨_, rfl, by show now - (now - 50) = 50; omega, rfl, rfl⟩

/-- C4: over any ledger built by `createLedger` and a sequence of
`recordInvocation` calls, `webSearchSucceeded` holds exactly when some
invoked entry is a successful `web_search`. -/
theorem C4_webSearchSucceeded_iff (avail : List String) (calls : List RecordCall) :
    webSearchSucceeded (applyCalls avail calls) = true ↔
    ∃ e ∈ (applyCalls avail calls).invoked_tools,
      e.name = "web_search" ∧ e.status = .success := by
  simp [webSearchSucceeded, List.any_eq_true, Bool.and_eq_true, beq_iff_eq]

/-- C2 (code bug in the source): in a turn with tools disabled, the model's
plain fake-claim text is emitted verbatim — the truthfulness gate (and the
parser) only run when at least one tool is enabled, so the corrective
message the spec promises never appears. -/
theorem C2_tools_disabled_fake_claim_emitted_verbatim :
    handleDone false true false false [] (createLedger [])
      "2025-01-01T00:00:00.000Z" parisClaimText = .emit parisClaimText
    ∧ hasFakeWebSearchClaim parisClaimText = true
    ∧ parisClaimText ≠ CORRECTED_MESSAGE_NO_WEB_SEARCH :=
  ⟨by decide, by decide, by decide⟩

/-- C9 counterexample: a terminal signal carrying the canceled flag with a
non-empty buffered text commits nothing, although the claim says a
non-empty partial buffer is always committed on abort. -/
theorem C9_counterexample :
    handleDone false true true false [] (createLedger []) "ts"
      "partial answer text" = .aborted none
    ∧ ("partial answer text" : String) ≠ "" :=
  ⟨by decide, by decide⟩

/-- C9 as amended: an abort via the local flag (terminal signal not
canceled, conversation id present) still commits a non-empty partial
buffer; a terminal signal carrying the canceled flag commits nothing,
whether or not text is buffered. -/
theorem C9_abort_commit_policy (abortFlag hasCid toolsEnabled : Bool)
    (toolNames : List String) (ledger : ToolLedger) (ts full : String) :
    handleDone true true false toolsEnabled toolNames ledger ts full
      = .aborted (if full = "" then none else some full)
    ∧ handleDone abortFlag hasCid true toolsEnabled toolNames ledger ts full
      = .aborted none := by
  constructor
  · by_cases h : full = "" <;> simp [handleDone, h]
  · simp [handleDone]

/-- C1: in a round with tools enabled whose full output parses as a final
answer, the emitted-and-saved content is the fixed corrective message when
the content carries a fake web-search claim unsupported by the ledger, and
the final-answer content verbatim otherwise. -/
theorem C1_final_answer_truthfulness_gate (toolNames : List String)
    (ledger : ToolLedger) (ts full c : String) (hnames : toolNames ≠ [])
    (hp : parseToolResponse full = some (.final_answer c)) :
    handleDone false true false true toolNames ledger ts full
      = .emit (if hasFakeWebSearchClaim c && !webSearchSucceeded ledger
               then CORRECTED_MESSAGE_NO_WEB_SEARCH else c) := by
  have hfull : full ≠ "" := by
    intro h
    rw [h] at hp
    have hnil : parseToolResponse "" = none := by decide
    rw [hnil] at hp
    exact Option.noConfusion hp
  have hne : toolNames.isEmpty = false := by
    cases toolNames with
    | nil => exact absurd rfl hnames
    | cons a l => rfl
  simp [handleDone, hp, hfull, hne]

/-- C1 witness: with the write tool enabled, an empty ledger and a
final-answer document claiming a search, the corrective message is emitted. -/
theorem C1_witness :
    handleDone false true false true ["write_file"] (createLedger ["write_file"])
      "ts" finalAnswerFakeClaim = .emit CORRECTED_MESSAGE_NO_WEB_SEARCH := by
  have h := C1_final_answer_truthfulness_gate ["write_file"]
    (createLedger ["write_file"]) "ts" finalAnswerFakeClaim "After searching, x."
    (by decide) (by decide)
  rw [h]
  decide

/-- C3: a dispatched request for a content-writing tool has its `content`
argument rewritten before the dispatcher sees it: the disclaimer is
prepended when the content carries a fake claim and the ledger records no
successful web search; the could-not-verify note is used when the last web
search succeeded with zero results; the provenance footer is always
appended. -/
theorem C3_write_tool_content_rewrite (toolNames : List String)
    (ledger : ToolLedger) (ts full name body : String) (args : Json)
    (hp : parseToolResponse full = some (.tool_request name args))
    (hmem : toolNames.contains name = true)
    (hw : isWriteToolName name = true)
    (hb : getField args "content" = some (.str body)) :
    ∃ newContent : String,
      handleDone false true false true toolNames ledger ts full
        = .dispatch name (setField args "content" (.str newContent))
      ∧ (hasFakeWebSearchClaim body = true → webSearchSucceeded ledger = false →
          newContent = writeDisclaimer ++ body ++ buildProvenanceFooter ledger ts)
      ∧ (∀ r : LastWebSearchResult, webSearchSucceeded ledger = true →
          getLastWebSearchResult ledger = some r → r.countIsZero = true →
          newContent = couldNotVerifyMsg ++ buildProvenanceFooter ledger ts)
      ∧ ∃ b : String, newContent = b ++ buildProvenanceFooter ledger ts := by
  have hfull : full ≠ "" := by
    intro h
    rw [h] at hp
    have hnil : parseToolResponse "" = none := by decide
    rw [hnil] at hp
    exact Option.noConfusion hp
  have hne : toolNames.isEmpty = false := by
    cases toolNames with
    | nil => simp [List.contains] at hmem
    | cons a l => rfl
  refine ⟨(if hasFakeWebSearchClaim body && !webSearchSucceeded ledger
      then writeDisclaimer ++ body
      else if webSearchSucceeded ledger &&
          (match getLastWebSearchResult ledger with
           | some r => r.countIsZero || r.urls.isEmpty
           | none => false)
        then couldNotVerifyMsg else body) ++ buildProvenanceFooter ledger ts,
    ?_, ?_, ?_, ⟨_, rfl⟩⟩
  · have hmem2 : name ∈ toolNames := by simpa using hmem
    simp [handleDone, hp, hfull, hne, hmem2, hw, rewriteWriteArgs,
      contentArgString, hb]
  · intro hfake hsucc
    simp [hfake, hsucc, String.append_assoc]
  · intro r hsucc hlast hzero
    simp [hsucc, hlast, hzero]

/-- C3 witness: with the write tool enabled and an empty ledger, the
dispatched `content` gets the disclaimer prepended and the footer appended. -/
theorem C3_witness :
    ∃ newContent : String,
      handleDone false true false true ["write_file"]
        (createLedger ["write_file"]) "ts" toolRequestFakeClaim
        = .dispatch "write_file" (setField writeArgsFixture "content" (.str newContent))
      ∧ (hasFakeWebSearchClaim "After searching, x." = true →
          webSearchSucceeded (createLedger ["write_file"]) = false →
          newContent = writeDisclaimer ++ "After searching, x." ++
            buildProvenanceFooter (createLedger ["write_file"]) "ts")
      ∧ (∀ r : LastWebSearchResult,
          webSearchSucceeded (createLedger ["write_file"]) = true →
          getLastWebSearchResult (createLedger ["write_file"]) = some r →
          r.countIsZero = true →
          newContent = couldNotVerifyMsg ++
            buildProvenanceFooter (createLedger ["write_file"]) "ts")
      ∧ ∃ b : String, newContent = b ++
          buildProvenanceFooter (createLedger ["write_file"]) "ts" :=
  C3_write_tool_content_rewrite ["write_file"] (createLedger ["write_file"])
    "ts" toolRequestFakeClaim "write_file" "After searching, x." writeArgsFixture
    (by decide) (by decide) (by decide) (by decide)

/-- Helper: the downward scan of `getLastWebSearchResult` is the first hit,
newest first, of "successful web_search whose output parses". -/
theorem lastWebSearchGo_eq_head (ps : List (InvokedToolEntry × String)) :
    lastWebSearchGo ps = ps.findSome? (fun p =>
      if p.1.name == "web_search" && p.1.status == .success
      then (parseWebSearchOutput p.2).map webParsedToResult
      else none) := by
  induction ps with
  | nil => rfl
  | cons p rest ih =>
    obtain ⟨e, raw⟩ := p
    rw [List.findSome?_cons]
    by_cases h : (e.name == "web_search" && e.status == .success) = true
    · cases hp : parseWebSearchOutput raw with
      | none => simpa [lastWebSearchGo, h, hp] using ih
      | some parsed => simp [lastWebSearchGo, h, hp]
    · simp only [Bool.not_eq_true] at h
      simpa [lastWebSearchGo, h] using ih

/-- C5 as amended: `getLastWebSearchResult` scans newest-first and returns
the converted parse of the most recent successful `web_search` invocation
whose raw output parses as a structured result; `none` only when no
successful invocation's output parses. (Totality — "never throws" — is by
construction of the embedding, mirroring the source's try/catch.) -/
theorem C5_last_web_search_newest_parsing (ledger : ToolLedger) :
    getLastWebSearchResult ledger = lastWebNewestParsing ledger :=
  lastWebSearchGo_eq_head _

/-- C5 counterexample: when the most recent successful `web_search` output
is malformed, the claim's reading gives `none`, yet the source keeps
scanning and returns the older parsed result. -/
theorem C5_counterexample :
    parseWebSearchOutput "error: timeout" = none
    ∧ lastWebSearchClaimReading ledgerStaleParse = none
    ∧ getLastWebSearchResult ledgerStaleParse
      = some { result_count_mant := 1, result_count_exp := 0,
               provider := "duckduckgo", urls := ["https://a.example/1"] } :=
  ⟨by decide, by decide, by decide⟩

/-- Helper: `isPrefixL` agrees with `List.IsPrefix`. -/
theorem isPrefixL_iff (pat cs : List Char) :
    isPrefixL pat cs = true ↔ pat <+: cs := by
  induction pat generalizing cs with
  | nil => simp [isPrefixL]
  | cons p ps ih =>
    cases cs with
    | nil => simp [isPrefixL]
    | cons c rest => simp [isPrefixL, List.cons_prefix_cons, ih]

/-- Helper: `containsL` agrees with `List.IsInfix`. -/
theorem containsL_iff (pat cs : List Char) :
    containsL pat cs = true ↔ pat <:+: cs := by
  induction cs with
  | nil =>
    cases pat with
    | nil => simp [containsL, isPrefixL]
    | cons p ps => simp [containsL, isPrefixL]
  | cons c rest ih =>
    simp [containsL, isPrefixL_iff, ih, List.infix_cons_iff]

/-- Helper: every element is an infix of a separator join. -/
theorem infix_joinSepL (sep : List Char) (xs : List (List Char)) (x : List Char)
    (hx : x ∈ xs) : x <:+: joinSepL sep xs := by
  induction xs with
  | nil => cases hx
  | cons y ys ih =>
    cases hx with
    | head =>
      cases ys with
      | nil => exact List.infix_rfl
      | cons z zs =>
        exact ⟨[], sep ++ joinSepL sep (z :: zs), by simp [joinSepL, List.append_assoc]⟩
    | tail _ hmem =>
      cases ys with
      | nil => cases hmem
      | cons z zs =>
        exact (ih hmem).trans (List.suffix_append (y ++ sep) _).isInfix

/-- Helper: a pattern occurring inside one joined piece occurs in the join. -/
theorem containsS_joinSepS (sep : String) (xs : List String) (pat x : String)
    (hx : x ∈ xs) (hpx : pat.toList <:+: x.toList) :
    containsS pat (joinSepS sep xs) = true := by
  apply (containsL_iff _ _).mpr
  exact hpx.trans (infix_joinSepL sep.toList (xs.map String.toList) x.toList
    (List.mem_map_of_mem String.toList hx))

/-- Helper: `String.toList` distributes over append. -/
theorem toList_append (a b : String) : (a ++ b).toList = a.toList ++ b.toList :=
  String.data_append a b

/-- C6 as amended: the provenance footer lists the name of every invoked
tool (joined in invocation order, so a tool invoked more than once is
listed more than once), shows the literal `none` when there were zero
invocations, and carries the literal `None (offline)` marker whenever no
source URLs were collected. -/
theorem C6_footer_names_and_offline_marker (L : ToolLedger) (ts : String) :
    (L.invoked_tools = [] →
      containsS "- Tools used: none" (buildProvenanceFooter L ts) = true)
    ∧ (∀ e ∈ L.invoked_tools,
      containsS e.name (buildProvenanceFooter L ts) = true)
    ∧ (collectedWebSources L = [] →
      containsS "None (offline)" (buildProvenanceFooter L ts) = true) := by
  have hfoot : buildProvenanceFooter L ts = joinSepS "\n"
      ["", "---", "Provenance",
       "- Generated at: " ++ ts,
       "- Tools used: " ++ toolsUsedValue L,
       (match getLastWebSearchResult L with
        | some r =>
          if r.provider ≠ "" then "- Web search provider: " ++ r.provider ++ "\n"
          else ""
        | none => ""),
       "- Source URLs: " ++
         (if (collectedWebSources L).length > 0
          then "\n  " ++ (if (collectedWebSources L).length > 0
            then joinSepS "\n  " (collectedWebSources L) else "None (offline)")
          else (if (collectedWebSources L).length > 0
            then joinSepS "\n  " (collectedWebSources L) else "None (offline)")),
       "- Notes: This assistant cannot browse the internet unless the web_search tool is enabled and was used.",
       "---"] := rfl
  refine ⟨?_, ?_, ?_⟩
  · intro h
    rw [hfoot]
    refine containsS_joinSepS _ _ _ ("- Tools used: " ++ toolsUsedValue L)
      (by simp) ?_
    have ht : toolsUsedValue L = "none" := by simp [toolsUsedValue, h]
    rw [ht]
    decide
  · intro e he
    rw [hfoot]
    refine containsS_joinSepS _ _ _ ("- Tools used: " ++ toolsUsedValue L)
      (by simp) ?_
    have hne : L.invoked_tools.length > 0 := by
      cases hL : L.invoked_tools with
      | nil => rw [hL] at he; cases he
      | cons a l => simp [hL]
    have ht : toolsUsedValue L
        = joinSepS ", " (L.invoked_tools.map (fun t => t.name)) := by
      simp [toolsUsedValue, hne]
    rw [ht, toList_append]
    have h1 : e.name.toList <:+:
        joinSepL ", ".toList
          ((L.invoked_tools.map (fun t => t.name)).map String.toList) :=
      infix_joinSepL _ _ _
        (List.mem_map_of_mem _ (List.mem_map_of_mem _ he))
    exact h1.trans (List.suffix_append _ _).isInfix
  · intro h
    rw [hfoot]
    refine containsS_joinSepS _ _ _
      ("- Source URLs: " ++
        (if (collectedWebSources L).length > 0
         then "\n  " ++ (if (collectedWebSources L).length > 0
           then joinSepS "\n  " (collectedWebSources L) else "None (offline)")
         else (if (collectedWebSources L).length > 0
           then joinSepS "\n  " (collectedWebSources L) else "None (offline)")))
      (by simp) ?_
    rw [h]
    decide

/-- C6 counterexample: invoking the same tool twice makes the footer list
its name twice — the names are joined without deduplication, against the
claim's "distinct names … no tool name listed more than once". -/
theorem C6_counterexample :
    ledgerDupNames.invoked_tools.map (fun e => e.name)
      = ["web_search", "web_search"]
    ∧ toolsUsedValue ledgerDupNames = "web_search, web_search"
    ∧ containsS "- Tools used: web_search, web_search"
        (buildProvenanceFooter ledgerDupNames "ts") = true :=
  ⟨by decide, by decide, by decide⟩

/-! ## Parser determinism under input extension

The lemmas of this section say that a successful parse is stable when more
input is appended after it: the same value is produced and the appended
characters land in the unconsumed rest. For number tokens at the very end
of the input this needs the appended text not to extend the token, which
`numSafe` captures. Fuel monotonicity bridges the different fuel values
that `parseJsonL` assigns to inputs of different lengths. -/

theorem dropWhile_append_ne {p : Char → Bool} {a : List Char} (b : List Char)
    (h : a.dropWhile p ≠ []) :
    (a ++ b).dropWhile p = a.dropWhile p ++ b := by
  rw [List.dropWhile_append, if_neg]
  simpa using h

theorem takeWhile_append_ne {p : Char → Bool} {a : List Char} (b : List Char)
    (h : a.dropWhile p ≠ []) :
    (a ++ b).takeWhile p = a.takeWhile p := by
  rw [List.takeWhile_append, if_neg]
  intro hlen
  exact h (List.dropWhile_eq_nil_iff.mpr
    (List.takeWhile_eq_self_iff.mp ((List.takeWhile_sublist p).eq_of_length hlen)))

theorem dropWhile_append_all {p : Char → Bool} {a : List Char} (b : List Char)
    (h : ∀ c ∈ a, p c = true) :
    (a ++ b).dropWhile p = b.dropWhile p := by
  rw [List.dropWhile_append, if_pos]
  simp [List.dropWhile_eq_nil_iff.mpr h]

theorem takeWhile_append_all {p : Char → Bool} {a : List Char} (b : List Char)
    (h : ∀ c ∈ a, p c = true) :
    (a ++ b).takeWhile p = a ++ b.takeWhile p := by
  rw [List.takeWhile_append, if_pos]
  rw [List.takeWhile_eq_self_iff.mpr h]

theorem strBody_append (suf : List Char) (acc cs : List Char) :
    ∀ s rest, strBody acc cs = some (s, rest) →
      strBody acc (cs ++ suf) = some (s, rest ++ suf) := by
  induction acc, cs using strBody.induct with
  | case1 acc => intro s r h; rw [strBody.eq_def] at h; exact Option.noConfusion h
  | case2 acc rest2 =>
    intro s r h
    rw [strBody.eq_def] at h
    simp at h
    simp only [List.cons_append]
    rw [strBody.eq_def]
    simp [h.1, h.2]
  | case3 acc hne =>
    intro s r h
    rw [strBody.eq_def] at h
    simp at h
  | case4 acc a b c2 d rest3 va vb vc vd hd hc hb ha hne ih =>
    intro s r h
    rw [strBody.eq_def] at h
    simp only [ha, hb, hc, hd] at h
    simp at h
    simp only [List.cons_append]
    rw [strBody.eq_def]
    simp only [ha, hb, hc, hd]
    simp
    exact ih s r h
  | case5 acc a b c2 d rest3 hbad hne =>
    intro s r h
    rw [strBody.eq_def] at h
    simp at h
  | case6 acc rest2 hshort hne =>
    intro s r h
    rw [strBody.eq_def] at h
    simp at h
  | case7 acc e rest2 hnu ch hch hne ih =>
    intro s r h
    rw [strBody.eq_def] at h
    simp [hnu, hch] at h
    simp only [List.cons_append]
    rw [strBody.eq_def]
    simp [hnu, hch]
    exact ih s r h
  | case8 acc e rest2 hnu hch hne =>
    intro s r h
    rw [strBody.eq_def] at h
    simp [hnu, hch] at h
  | case9 acc e rest2 hq hslash hctl =>
    intro s r h
    rw [strBody.eq_def] at h
    simp [hq, hslash, hctl] at h
  | case10 acc e rest2 hq hslash hctl ih =>
    intro s r h
    rw [strBody.eq_def] at h
    simp [hq, hslash, hctl] at h
    simp only [List.cons_append]
    rw [strBody.eq_def]
    simp [hq, hslash, hctl]
    exact ih s r h

theorem numSafe_takeWhile {suf : List Char} (h : numSafe suf = true) :
    suf.takeWhile isDigitCh = [] := by
  cases suf with
  | nil => rfl
  | cons c r =>
    simp [numSafe] at h
    simp [List.takeWhile_cons, h.1]

theorem numSafe_dropWhile {suf : List Char} (h : numSafe suf = true) :
    suf.dropWhile isDigitCh = suf := by
  cases suf with
  | nil => rfl
  | cons c r =>
    simp [numSafe] at h
    simp [List.dropWhile_cons, h.1]

theorem numDigits_tail_append (suf : List Char) {neg : Bool} {mds : List Char}
    {fexp sgn : Int} {r1 : List Char} {m e : Int} {rest : List Char}
    (h : (if (r1.takeWhile isDigitCh).isEmpty then none
          else some ((if neg then -1 else 1) * digitsToInt mds,
            fexp + sgn * digitsToInt (r1.takeWhile isDigitCh),
            r1.dropWhile isDigitCh)) = some (m, e, rest))
    (hsafe : rest ≠ [] ∨ numSafe suf = true) :
    (if ((r1 ++ suf).takeWhile isDigitCh).isEmpty then none
     else some ((if neg then -1 else 1) * digitsToInt mds,
       fexp + sgn * digitsToInt ((r1 ++ suf).takeWhile isDigitCh),
       (r1 ++ suf).dropWhile isDigitCh)) = some (m, e, rest ++ suf) := by
  by_cases hemp : (r1.takeWhile isDigitCh).isEmpty = true
  · rw [if_pos hemp] at h
    exact Option.noConfusion h
  · rw [if_neg hemp] at h
    simp only [Option.some.injEq, Prod.mk.injEq] at h
    obtain ⟨rfl, rfl, rfl⟩ := h
    by_cases hdw : r1.dropWhile isDigitCh = []
    · have hs : numSafe suf = true := by
        rcases hsafe with hne | hs
        · exact absurd hdw hne
        · exact hs
      have hall : ∀ c ∈ r1, isDigitCh c = true := List.dropWhile_eq_nil_iff.mp hdw
      rw [takeWhile_append_all suf hall, dropWhile_append_all suf hall,
        numSafe_takeWhile hs, numSafe_dropWhile hs, List.append_nil,
        List.takeWhile_eq_self_iff.mpr hall] at *
      rw [if_neg hemp, hdw]
      simp
    · rw [takeWhile_append_ne suf hdw, dropWhile_append_ne suf hdw, if_neg hemp]

theorem numExpPart_append (suf : List Char) (neg : Bool) (mds : List Char)
    (fexp : Int) (cs3 : List Char) (m e : Int) (rest : List Char)
    (h : numExpPart neg mds fexp cs3 = some (m, e, rest))
    (hsafe : rest ≠ [] ∨ numSafe suf = true) :
    numExpPart neg mds fexp (cs3 ++ suf) = some (m, e, rest ++ suf) := by
  cases cs3 with
  | nil =>
    simp only [numExpPart, Option.some.injEq, Prod.mk.injEq] at h
    obtain ⟨rfl, rfl, rfl⟩ := h
    have hs : numSafe suf = true := by
      rcases hsafe with hne | hs
      · exact absurd rfl hne
      · exact hs
    cases suf with
    | nil => rfl
    | cons c r2 =>
      have h3 : ¬c = 'e' := by intro hh; subst hh; simp [numSafe] at hs
      have h4 : ¬c = 'E' := by intro hh; subst hh; simp [numSafe] at hs
      simp [numExpPart, h3, h4]
  | cons c r =>
    by_cases hc : (c = 'e' || c = 'E') = true
    · simp only [numExpPart, hc, if_true] at h
      cases r with
      | nil => simp at h
      | cons c2 r2 =>
        simp only [List.cons_append]
        simp only [numExpPart, hc, if_true]
        by_cases h2 : c2 = '+'
        · simp only [h2, if_true, if_pos rfl] at h ⊢
          exact numDigits_tail_append suf h hsafe
        · by_cases h3 : c2 = '-'
          · simp only [if_neg h2, h3, if_pos rfl] at h ⊢
            exact numDigits_tail_append suf h hsafe
          · simp only [if_neg h2, if_neg h3] at h ⊢
            exact numDigits_tail_append suf h hsafe
    · simp only [numExpPart, hc, Bool.false_eq_true, if_false,
        Option.some.injEq, Prod.mk.injEq] at h
      obtain ⟨rfl, rfl, rfl⟩ := h
      simp only [List.cons_append]
      simp [numExpPart, hc]

theorem numLitBody_append (suf : List Char) (neg : Bool) (cs1 : List Char)
    (m e : Int) (rest : List Char)
    (h : numLitBody neg cs1 = some (m, e, rest))
    (hsafe : rest ≠ [] ∨ numSafe suf = true) :
    numLitBody neg (cs1 ++ suf) = some (m, e, rest ++ suf) := by
  simp only [numLitBody] at h ⊢
  by_cases hemp : (cs1.takeWhile isDigitCh).isEmpty = true
  · rw [if_pos hemp] at h
    exact Option.noConfusion h
  · rw [if_neg hemp] at h
    by_cases hlz : (((cs1.takeWhile isDigitCh).headD '0' = '0')
        && (cs1.takeWhile isDigitCh).length > 1) = true
    · rw [if_pos hlz] at h
      exact Option.noConfusion h
    · rw [if_neg hlz] at h
      by_cases hdw : cs1.dropWhile isDigitCh = []
      · -- the integer digits reach the end of cs1
        have hall : ∀ c ∈ cs1, isDigitCh c = true := List.dropWhile_eq_nil_iff.mp hdw
        have hid : cs1.takeWhile isDigitCh = cs1 := List.takeWhile_eq_self_iff.mpr hall
        rw [hdw] at h
        have hrest : rest = [] := by
          simp only [numExpPart, Option.some.injEq, Prod.mk.injEq] at h
          exact h.2.2.symm
        have hs : numSafe suf = true := by
          rcases hsafe with hne | hs
          · exact absurd hrest hne
          · exact hs
        rw [takeWhile_append_all suf hall, dropWhile_append_all suf hall,
          numSafe_takeWhile hs, numSafe_dropWhile hs, List.append_nil]
        rw [hid] at hemp hlz h
        rw [if_neg hemp, if_neg hlz]
        have happ := numExpPart_append suf neg cs1 0 [] m e rest h (Or.inr hs)
        simp only [List.nil_append] at happ
        cases suf with
        | nil => simpa using happ
        | cons c2 r2 =>
          have hdot : ¬c2 = '.' := by
            intro hh
            subst hh
            simp [numSafe] at hs
          simpa only [if_neg hdot] using happ
      · -- the integer-digit scan stops inside cs1
        rw [takeWhile_append_ne suf hdw, dropWhile_append_ne suf hdw,
          if_neg hemp, if_neg hlz]
        cases hcs2 : cs1.dropWhile isDigitCh with
        | nil => exact absurd hcs2 hdw
        | cons c2 r2 =>
          rw [hcs2] at h
          simp only [List.cons_append]
          by_cases hdot : c2 = '.'
          · simp only [if_pos hdot] at h ⊢
            by_cases hfemp : (r2.takeWhile isDigitCh).isEmpty = true
            · rw [if_pos hfemp] at h
              exact Option.noConfusion h
            · rw [if_neg hfemp] at h
              by_cases hdw2 : r2.dropWhile isDigitCh = []
              · have hall2 : ∀ c ∈ r2, isDigitCh c = true :=
                  List.dropWhile_eq_nil_iff.mp hdw2
                have hid2 : r2.takeWhile isDigitCh = r2 :=
                  List.takeWhile_eq_self_iff.mpr hall2
                rw [hdw2] at h
                have hrest : rest = [] := by
                  simp only [numExpPart, Option.some.injEq, Prod.mk.injEq] at h
                  exact h.2.2.symm
                have hs : numSafe suf = true := by
                  rcases hsafe with hne | hs
                  · exact absurd hrest hne
                  · exact hs
                rw [takeWhile_append_all suf hall2, dropWhile_append_all suf hall2,
                  numSafe_takeWhile hs, numSafe_dropWhile hs, List.append_nil]
                rw [hid2] at hfemp h
                rw [if_neg hfemp]
                have happ := numExpPart_append suf neg
                  (cs1.takeWhile isDigitCh ++ r2) (-(r2.length : Int)) [] m e rest
                  h (Or.inr hs)
                simpa using happ
              · rw [takeWhile_append_ne suf hdw2, dropWhile_append_ne suf hdw2,
                  if_neg hfemp]
                exact numExpPart_append suf neg _ _ _ m e rest h hsafe
          · simp only [if_neg hdot] at h ⊢
            have happ := numExpPart_append suf neg (cs1.takeWhile isDigitCh) 0
              (c2 :: r2) m e rest h hsafe
            simpa using happ

theorem numLit_append (suf : List Char) (cs : List Char) (m e : Int)
    (rest : List Char) (h : numLit cs = some (m, e, rest))
    (hsafe : rest ≠ [] ∨ numSafe suf = true) :
    numLit (cs ++ suf) = some (m, e, rest ++ suf) := by
  cases cs with
  | nil =>
    simp [numLit, numLitBody] at h
  | cons c r =>
    simp only [numLit, List.cons_append] at h ⊢
    by_cases hm : c = '-'
    · rw [if_pos hm] at h ⊢
      exact numLitBody_append suf true r m e rest h hsafe
    · rw [if_neg hm] at h ⊢
      exact numLitBody_append suf false (c :: r) m e rest h hsafe

theorem jsonVal_skipJ_ne (f : Nat) (cs : List Char) (x : Json × List Char)
    (h : jsonVal f cs = some x) : skipJ cs ≠ [] := by
  intro hnil
  cases f with
  | zero => simp [jsonVal] at h
  | succ f => rw [jsonVal, hnil] at h; exact Option.noConfusion h

theorem skipJ_append_ne {cs : List Char} (suf : List Char) (h : skipJ cs ≠ []) :
    skipJ (cs ++ suf) = skipJ cs ++ suf :=
  dropWhile_append_ne suf h

mutual

theorem jsonVal_mono : ∀ (f g : Nat), f ≤ g → ∀ cs v rest,
    jsonVal f cs = some (v, rest) → jsonVal g cs = some (v, rest)
  | 0, _, _, cs, v, rest, h => by simp [jsonVal] at h
  | f + 1, g, hle, cs, v, rest, h => by
    obtain ⟨g1, rfl⟩ : ∃ g1, g = g1 + 1 := ⟨g - 1, by omega⟩
    have hfg : f ≤ g1 := by omega
    rw [jsonVal] at h ⊢
    cases heq : skipJ cs with
    | nil => simp [heq] at h
    | cons c r =>
      simp only [heq] at h ⊢
      by_cases hn : c = 'n'
      · simpa only [if_pos hn] using h
      · simp only [if_neg hn] at h ⊢
        by_cases ht : c = 't'
        · simpa only [if_pos ht] using h
        · simp only [if_neg ht] at h ⊢
          by_cases hf : c = 'f'
          · simpa only [if_pos hf] using h
          · simp only [if_neg hf] at h ⊢
            by_cases hq : c = '"'
            · simpa only [if_pos hq] using h
            · simp only [if_neg hq] at h ⊢
              by_cases hbr : c = '['
              · simp only [if_pos hbr] at h ⊢
                cases heq2 : skipJ r with
                | nil => simp [heq2] at h
                | cons c2 r1 =>
                  simp only [heq2] at h ⊢
                  by_cases hcl : c2 = ']'
                  · simpa only [if_pos hcl] using h
                  · simp only [if_neg hcl] at h ⊢
                    cases hel : jsonElems f r with
                    | none => simp [hel] at h
                    | some p =>
                      obtain ⟨es, r2⟩ := p
                      simp only [hel] at h
                      simp only [jsonElems_mono f g1 hfg r es r2 hel]
                      exact h
              · simp only [if_neg hbr] at h ⊢
                by_cases hob : c = '{'
                · simp only [if_pos hob] at h ⊢
                  cases heq2 : skipJ r with
                  | nil => simp [heq2] at h
                  | cons c2 r1 =>
                    simp only [heq2] at h ⊢
                    by_cases hcl : c2 = '}'
                    · simpa only [if_pos hcl] using h
                    · simp only [if_neg hcl] at h ⊢
                      cases hel : jsonMembers f r with
                      | none => simp [hel] at h
                      | some p =>
                        obtain ⟨ms, r2⟩ := p
                        simp only [hel] at h
                        simp only [jsonMembers_mono f g1 hfg r ms r2 hel]
                        exact h
                · simp only [if_neg hob] at h ⊢
                  exact h

theorem jsonElems_mono : ∀ (f g : Nat), f ≤ g → ∀ cs es rest,
    jsonElems f cs = some (es, rest) → jsonElems g cs = some (es, rest)
  | 0, _, _, cs, es, rest, h => by simp [jsonElems] at h
  | f + 1, g, hle, cs, es, rest, h => by
    obtain ⟨g1, rfl⟩ : ∃ g1, g = g1 + 1 := ⟨g - 1, by omega⟩
    have hfg : f ≤ g1 := by omega
    rw [jsonElems] at h ⊢
    cases hv : jsonVal f cs with
    | none => simp [hv] at h
    | some p =>
      obtain ⟨v, r⟩ := p
      simp only [hv] at h
      simp only [jsonVal_mono f g1 hfg cs v r hv]
      cases heq : skipJ r with
      | nil => simp [heq] at h
      | cons c r1 =>
        simp only [heq] at h ⊢
        by_cases hc : c = ','
        · simp only [if_pos hc] at h ⊢
          cases hel : jsonElems f r1 with
          | none => simp [hel] at h
          | some p2 =>
            obtain ⟨es2, r2⟩ := p2
            simp only [hel] at h
            simp only [jsonElems_mono f g1 hfg r1 es2 r2 hel]
            exact h
        · simp only [if_neg hc] at h ⊢
          exact h

theorem jsonMembers_mono : ∀ (f g : Nat), f ≤ g → ∀ cs ms rest,
    jsonMembers f cs = some (ms, rest) → jsonMembers g cs = some (ms, rest)
  | 0, _, _, cs, ms, rest, h => by simp [jsonMembers] at h
  | f + 1, g, hle, cs, ms, rest, h => by
    obtain ⟨g1, rfl⟩ : ∃ g1, g = g1 + 1 := ⟨g - 1, by omega⟩
    have hfg : f ≤ g1 := by omega
    rw [jsonMembers] at h ⊢
    cases heq : skipJ cs with
    | nil => simp [heq] at h
    | cons c0 r =>
      simp only [heq] at h ⊢
      by_cases hq : c0 = '"'
      · simp only [if_pos hq] at h ⊢
        cases hs : strBody [] r with
        | none => simp [hs] at h
        | some kp =>
          obtain ⟨k, r1⟩ := kp
          simp only [hs] at h ⊢
          cases heq1 : skipJ r1 with
          | nil => simp [heq1] at h
          | cons c1 r2 =>
            simp only [heq1] at h ⊢
            by_cases hcol : c1 = ':'
            · simp only [if_pos hcol] at h ⊢
              cases hv : jsonVal f r2 with
              | none => simp [hv] at h
              | some p =>
                obtain ⟨v, r3⟩ := p
                simp only [hv] at h
                simp only [jsonVal_mono f g1 hfg r2 v r3 hv]
                cases heq2 : skipJ r3 with
                | nil => simp [heq2] at h
                | cons c2 r4 =>
                  simp only [heq2] at h ⊢
                  by_cases hcm : c2 = ','
                  · simp only [if_pos hcm] at h ⊢
                    cases hms : jsonMembers f r4 with
                    | none => simp [hms] at h
                    | some p2 =>
                      obtain ⟨ms2, r5⟩ := p2
                      simp only [hms] at h
                      simp only [jsonMembers_mono f g1 hfg r4 ms2 r5 hms]
                      exact h
                  · simp only [if_neg hcm] at h ⊢
                    exact h
            · simp only [if_neg hcol] at h ⊢
              exact h
      · simp only [if_neg hq] at h ⊢
        exact h

end

mutual

theorem jsonVal_append : ∀ (f : Nat) (cs suf : List Char) (v : Json) (rest : List Char),
    jsonVal f cs = some (v, rest) →
    (rest ≠ [] ∨ numSafe suf = true ∨ v.isNum = false) →
    jsonVal f (cs ++ suf) = some (v, rest ++ suf)
  | 0, cs, suf, v, rest, h, _ => by simp [jsonVal] at h
  | f + 1, cs, suf, v, rest, h, hc => by
    rw [jsonVal] at h ⊢
    cases heq : skipJ cs with
    | nil => simp [heq] at h
    | cons c r =>
      have hne : skipJ cs ≠ [] := by rw [heq]; simp
      rw [skipJ_append_ne suf hne, heq]
      simp only [heq] at h
      simp only [List.cons_append]
      by_cases hn : c = 'n'
      · simp only [if_pos hn] at h ⊢
        split at h
        · rename_i r1
          simp only [Option.some.injEq, Prod.mk.injEq] at h
          rw [← h.1, ← h.2]
          simp
        · exact Option.noConfusion h
      · simp only [if_neg hn] at h ⊢
        by_cases ht : c = 't'
        · simp only [if_pos ht] at h ⊢
          split at h
          · rename_i r1
            simp only [Option.some.injEq, Prod.mk.injEq] at h
            rw [← h.1, ← h.2]
            simp
          · exact Option.noConfusion h
        · simp only [if_neg ht] at h ⊢
          by_cases hf : c = 'f'
          · simp only [if_pos hf] at h ⊢
            split at h
            · rename_i r1
              simp only [Option.some.injEq, Prod.mk.injEq] at h
              rw [← h.1, ← h.2]
              simp
            · exact Option.noConfusion h
          · simp only [if_neg hf] at h ⊢
            by_cases hq : c = '"'
            · simp only [if_pos hq] at h ⊢
              cases hs : strBody [] r with
              | none => simp [hs] at h
              | some sp =>
                obtain ⟨s, r1⟩ := sp
                simp only [hs] at h
                simp only [strBody_append suf [] r s r1 hs]
                simp only [Option.some.injEq, Prod.mk.injEq] at h ⊢
                exact ⟨h.1, by rw [h.2]⟩
            · simp only [if_neg hq] at h ⊢
              by_cases hbr : c = '['
              · simp only [if_pos hbr] at h ⊢
                cases heq2 : skipJ r with
                | nil => simp [heq2] at h
                | cons c2 r1 =>
                  have hne2 : skipJ r ≠ [] := by rw [heq2]; simp
                  rw [skipJ_append_ne suf hne2, heq2]
                  simp only [heq2] at h
                  simp only [List.cons_append]
                  by_cases hcl : c2 = ']'
                  · simp only [if_pos hcl] at h ⊢
                    simp only [Option.some.injEq, Prod.mk.injEq] at h ⊢
                    exact ⟨h.1, by rw [h.2]⟩
                  · simp only [if_neg hcl] at h ⊢
                    cases hel : jsonElems f r with
                    | none => simp [hel] at h
                    | some p =>
                      obtain ⟨es, r2⟩ := p
                      simp only [hel] at h
                      simp only [Option.some.injEq, Prod.mk.injEq] at h
                      simp only [jsonElems_append f r suf es r2 hel]
                      simp only [Option.some.injEq, Prod.mk.injEq]
                      exact ⟨h.1, by rw [h.2]⟩
              · simp only [if_neg hbr] at h ⊢
                by_cases hob : c = '{'
                · simp only [if_pos hob] at h ⊢
                  cases heq2 : skipJ r with
                  | nil => simp [heq2] at h
                  | cons c2 r1 =>
                    have hne2 : skipJ r ≠ [] := by rw [heq2]; simp
                    rw [skipJ_append_ne suf hne2, heq2]
                    simp only [heq2] at h
                    simp only [List.cons_append]
                    by_cases hcl : c2 = '}'
                    · simp only [if_pos hcl] at h ⊢
                      simp only [Option.some.injEq, Prod.mk.injEq] at h ⊢
                      exact ⟨h.1, by rw [h.2]⟩
                    · simp only [if_neg hcl] at h ⊢
                      cases hel : jsonMembers f r with
                      | none => simp [hel] at h
                      | some p =>
                        obtain ⟨ms, r2⟩ := p
                        simp only [hel] at h
                        simp only [Option.some.injEq, Prod.mk.injEq] at h
                        simp only [jsonMembers_append f r suf ms r2 hel]
                        simp only [Option.some.injEq, Prod.mk.injEq]
                        exact ⟨h.1, by rw [h.2]⟩
                · simp only [if_neg hob] at h ⊢
                  by_cases hnum : (c = '-' || isDigitCh c) = true
                  · simp only [hnum, if_true] at h ⊢
                    cases hnl : numLit (c :: r) with
                    | none => simp [hnl] at h
                    | some t =>
                      obtain ⟨m, e2, r1⟩ := t
                      simp only [hnl] at h
                      simp only [Option.some.injEq, Prod.mk.injEq] at h
                      obtain ⟨hv, hr⟩ := h
                      have hsafe : r1 ≠ [] ∨ numSafe suf = true := by
                        rcases hc with ha | hb | hcnum
                        · left; rw [hr]; exact ha
                        · right; exact hb
                        · rw [← hv] at hcnum; simp [Json.isNum] at hcnum
                      have := numLit_append suf (c :: r) m e2 r1 hnl hsafe
                      simp only [List.cons_append] at this
                      simp only [this]
                      simp only [Option.some.injEq, Prod.mk.injEq]
                      exact ⟨hv, by rw [hr]⟩
                  · simp only [hnum] at h
                    simp at h

theorem jsonElems_append : ∀ (f : Nat) (cs suf : List Char) (es : List Json) (rest : List Char),
    jsonElems f cs = some (es, rest) →
    jsonElems f (cs ++ suf) = some (es, rest ++ suf)
  | 0, cs, suf, es, rest, h => by simp [jsonElems] at h
  | f + 1, cs, suf, es, rest, h => by
    rw [jsonElems] at h ⊢
    cases hv : jsonVal f cs with
    | none => simp [hv] at h
    | some p =>
      obtain ⟨v, r⟩ := p
      simp only [hv] at h
      cases heq : skipJ r with
      | nil => simp [heq] at h
      | cons c r1 =>
        have hrne : r ≠ [] := by
          intro hr
          rw [hr] at heq
          exact absurd heq (by simp [skipJ])
        simp only [jsonVal_append f cs suf v r hv (Or.inl hrne)]
        have hne : skipJ r ≠ [] := by rw [heq]; simp
        rw [skipJ_append_ne suf hne, heq]
        simp only [heq] at h
        simp only [List.cons_append]
        by_cases hc : c = ','
        · simp only [if_pos hc] at h ⊢
          cases hel : jsonElems f r1 with
          | none => simp [hel] at h
          | some p2 =>
            obtain ⟨es2, r2⟩ := p2
            simp only [hel] at h
            simp only [Option.some.injEq, Prod.mk.injEq] at h
            simp only [jsonElems_append f r1 suf es2 r2 hel]
            simp only [Option.some.injEq, Prod.mk.injEq]
            exact ⟨h.1, by rw [h.2]⟩
        · simp only [if_neg hc] at h ⊢
          by_cases hcl : c = ']'
          · simp only [if_pos hcl] at h ⊢
            simp only [Option.some.injEq, Prod.mk.injEq] at h ⊢
            exact ⟨h.1, by rw [h.2]⟩
          · simp only [if_neg hcl] at h
            exact Option.noConfusion h

theorem jsonMembers_append : ∀ (f : Nat) (cs suf : List Char) (ms : List (String × Json)) (rest : List Char),
    jsonMembers f cs = some (ms, rest) →
    jsonMembers f (cs ++ suf) = some (ms, rest ++ suf)
  | 0, cs, suf, ms, rest, h => by simp [jsonMembers] at h
  | f + 1, cs, suf, ms, rest, h => by
    rw [jsonMembers] at h ⊢
    cases heq : skipJ cs with
    | nil => simp [heq] at h
    | cons c0 r =>
      have hne : skipJ cs ≠ [] := by rw [heq]; simp
      rw [skipJ_append_ne suf hne, heq]
      simp only [heq] at h
      simp only [List.cons_append]
      by_cases hq : c0 = '"'
      · simp only [if_pos hq] at h ⊢
        cases hs : strBody [] r with
        | none => simp [hs] at h
        | some kp =>
          obtain ⟨k, r1⟩ := kp
          simp only [hs] at h
          simp only [strBody_append suf [] r k r1 hs]
          cases heq1 : skipJ r1 with
          | nil => simp [heq1] at h
          | cons c1 r2 =>
            have hne1 : skipJ r1 ≠ [] := by rw [heq1]; simp
            rw [skipJ_append_ne suf hne1, heq1]
            simp only [heq1] at h
            simp only [List.cons_append]
            by_cases hcol : c1 = ':'
            · simp only [if_pos hcol] at h ⊢
              cases hv : jsonVal f r2 with
              | none => simp [hv] at h
              | some p =>
                obtain ⟨v, r3⟩ := p
                simp only [hv] at h
                cases heq2 : skipJ r3 with
                | nil => simp [heq2] at h
                | cons c2 r4 =>
                  have hr3ne : r3 ≠ [] := by
                    intro hr
                    rw [hr] at heq2
                    exact absurd heq2 (by simp [skipJ])
                  simp only [jsonVal_append f r2 suf v r3 hv (Or.inl hr3ne)]
                  have hne2 : skipJ r3 ≠ [] := by rw [heq2]; simp
                  rw [skipJ_append_ne suf hne2, heq2]
                  simp only [heq2] at h
                  simp only [List.cons_append]
                  by_cases hcm : c2 = ','
                  · simp only [if_pos hcm] at h ⊢
                    cases hms : jsonMembers f r4 with
                    | none => simp [hms] at h
                    | some p2 =>
                      obtain ⟨ms2, r5⟩ := p2
                      simp only [hms] at h
                      simp only [Option.some.injEq, Prod.mk.injEq] at h
                      simp only [jsonMembers_append f r4 suf ms2 r5 hms]
                      simp only [Option.some.injEq, Prod.mk.injEq]
                      exact ⟨h.1, by rw [h.2]⟩
                  · simp only [if_neg hcm] at h ⊢
                    by_cases hcb : c2 = '}'
                    · simp only [if_pos hcb] at h ⊢
                      simp only [Option.some.injEq, Prod.mk.injEq] at h ⊢
                      exact ⟨h.1, by rw [h.2]⟩
                    · simp only [if_neg hcb] at h
                      exact Option.noConfusion h
            · simp only [if_neg hcol] at h
              exact Option.noConfusion h
      · simp only [if_neg hq] at h
        exact Option.noConfusion h

end

/-! ## Whitespace, trimming and parser-shape lemmas

Support for the two parser claims: how `trim` decomposes over
concatenation, how the code-fence scan and the first-line split behave on
inputs built from known pieces, and what a successful `JSON.parse` says
about the shape of its input. -/

theorem jsonWs_space {c : Char} (h : jsonWs c = true) : isSpaceJS c = true := by
  simp only [jsonWs, Bool.or_eq_true, decide_eq_true_eq] at h
  rcases h with ((h|h)|h)|h <;> subst h <;> rfl

theorem dropWhile_idem (p : Char → Bool) (cs : List Char) :
    (cs.dropWhile p).dropWhile p = cs.dropWhile p := by
  induction cs with
  | nil => rfl
  | cons c r ih =>
    by_cases hp : p c
    · simp [List.dropWhile_cons, hp, ih]
    · simp [List.dropWhile_cons, hp]

theorem skipJ_skipJ (cs : List Char) : skipJ (skipJ cs) = skipJ cs :=
  dropWhile_idem jsonWs cs

theorem jsonVal_skipJ (f : Nat) (cs : List Char) :
    jsonVal f (skipJ cs) = jsonVal f cs := by
  cases f with
  | zero => rfl
  | succ f => rw [jsonVal, jsonVal, skipJ_skipJ]

theorem head_dropWhile_not (p : Char → Bool) : ∀ (cs : List Char) {c : Char}
    {r : List Char}, cs.dropWhile p = c :: r → p c = false
  | [], _, _, h => by simp at h
  | a :: cs, c, r, h => by
    by_cases hp : p a
    · rw [List.dropWhile_cons, if_pos hp] at h
      exact head_dropWhile_not p cs h
    · rw [List.dropWhile_cons, if_neg hp] at h
      cases h
      exact Bool.of_not_eq_true hp

theorem skipJ_eq_trimLeft_of_head : ∀ (cs : List Char) {c : Char} {r : List Char},
    skipJ cs = c :: r → isSpaceJS c = false → trimLeftL cs = c :: r
  | [], _, _, h, _ => by simp [skipJ] at h
  | a :: cs, c, r, h, hns => by
    by_cases hw : jsonWs a = true
    · rw [skipJ, List.dropWhile_cons, if_pos (by simp [hw])] at h
      rw [trimLeftL, List.dropWhile_cons, if_pos (by simp [jsonWs_space hw])]
      exact skipJ_eq_trimLeft_of_head cs h hns
    · rw [skipJ, List.dropWhile_cons, if_neg (by simp [hw])] at h
      cases h
      rw [trimLeftL, List.dropWhile_cons, if_neg (by simp [hns])]

theorem trimRight_decomp (cs : List Char) :
    ∃ w, cs = trimRightL cs ++ w ∧ ∀ c ∈ w, isSpaceJS c = true := by
  refine ⟨(cs.reverse.takeWhile isSpaceJS).reverse, ?_, ?_⟩
  · conv_lhs => rw [← cs.reverse_reverse, ← List.takeWhile_append_dropWhile
      (p := isSpaceJS) (l := cs.reverse)]
    rw [List.reverse_append, trimRightL]
  · intro c hc
    rw [List.mem_reverse] at hc
    exact List.mem_takeWhile_imp hc

theorem trimLeft_decomp (cs : List Char) :
    ∃ w, cs = w ++ trimLeftL cs ∧ ∀ c ∈ w, isSpaceJS c = true := by
  refine ⟨cs.takeWhile isSpaceJS, ?_, ?_⟩
  · rw [trimLeftL, List.takeWhile_append_dropWhile]
  · intro c hc
    exact List.mem_takeWhile_imp hc

theorem trimRightL_ne_nil_append {b : List Char} (a : List Char)
    (h : trimRightL b ≠ []) : trimRightL (a ++ b) = a ++ trimRightL b := by
  have hb : b.reverse.dropWhile isSpaceJS ≠ [] := by
    intro hh
    exact h (by rw [trimRightL, hh]; rfl)
  rw [trimRightL, List.reverse_append, dropWhile_append_ne _ hb,
    List.reverse_append, List.reverse_reverse, trimRightL]

theorem trimRightL_eq_nil_iff {b : List Char} :
    trimRightL b = [] ↔ ∀ c ∈ b, isSpaceJS c = true := by
  rw [trimRightL, List.reverse_eq_nil_iff, List.dropWhile_eq_nil_iff]
  constructor
  · intro h c hc
    exact h c (List.mem_reverse.mpr hc)
  · intro h c hc
    exact h c (List.mem_reverse.mp hc)

theorem trimRightL_all_space_append {b : List Char} (a : List Char)
    (h : ∀ c ∈ b, isSpaceJS c = true) : trimRightL (a ++ b) = trimRightL a := by
  rw [trimRightL, List.reverse_append, dropWhile_append_all, trimRightL]
  intro c hc
  exact h c (List.mem_reverse.mp hc)

theorem trimLeftL_eq_nil_iff {b : List Char} :
    trimLeftL b = [] ↔ ∀ c ∈ b, isSpaceJS c = true :=
  List.dropWhile_eq_nil_iff

theorem trimL_eq_nil_iff {cs : List Char} :
    trimL cs = [] ↔ ∀ c ∈ cs, isSpaceJS c = true := by
  rw [trimL, trimRightL_eq_nil_iff]
  constructor
  · intro h c hc
    obtain ⟨w, hw, hws⟩ := trimLeft_decomp cs
    rw [hw] at hc
    rcases List.mem_append.mp hc with h1 | h1
    · exact hws c h1
    · exact h c h1
  · intro h c hc
    obtain ⟨u, hu, _⟩ := trimLeft_decomp cs
    exact h c (by rw [hu]; exact List.mem_append.mpr (Or.inr hc))

theorem trimRightL_prefix (cs : List Char) : trimRightL cs <+: cs := by
  obtain ⟨w, hw, _⟩ := trimRight_decomp cs
  exact ⟨w, hw.symm⟩

theorem trimL_infix (cs : List Char) : trimL cs <:+: cs := by
  obtain ⟨w, hw, _⟩ := trimRight_decomp (trimLeftL cs)
  obtain ⟨u, hu, _⟩ := trimLeft_decomp cs
  refine ⟨u, w, ?_⟩
  rw [trimL, List.append_assoc, ← hw]
  exact hu.symm

theorem trimL_trimLeftL (cs : List Char) : trimL (trimLeftL cs) = trimL cs := by
  rw [trimL, trimL, trimLeftL, trimLeftL, dropWhile_idem]

theorem trimRightL_head {cs : List Char} (h : trimRightL cs ≠ []) :
    (trimRightL cs).head? = cs.head? := by
  obtain ⟨w, hw, _⟩ := trimRight_decomp cs
  conv_rhs => rw [hw]
  cases htr : trimRightL cs with
  | nil => exact absurd htr h
  | cons a r => simp [htr]

theorem trimRightL_last {cs : List Char} (h : trimRightL cs ≠ []) :
    ∃ c, (trimRightL cs).getLast? = some c ∧ isSpaceJS c = false := by
  rw [trimRightL] at h ⊢
  cases hd : cs.reverse.dropWhile isSpaceJS with
  | nil => rw [hd] at h; exact absurd rfl h
  | cons a r =>
    refine ⟨a, ?_, head_dropWhile_not _ _ hd⟩
    simp [hd]

theorem parseJsonL_some {cs : List Char} {j : Json} (h : parseJsonL cs = some j) :
    ∃ rest, jsonVal (cs.length + 1) cs = some (j, rest) ∧ skipJ rest = [] := by
  rw [parseJsonL] at h
  cases hv : jsonVal (cs.length + 1) cs with
  | none => rw [hv] at h; exact absurd h (by simp)
  | some p =>
    obtain ⟨v, rest⟩ := p
    simp only [hv] at h
    by_cases he : (skipJ rest).isEmpty = true
    · rw [if_pos he] at h
      cases h
      exact ⟨rest, rfl, by simpa using he⟩
    · rw [if_neg he] at h
      exact absurd h (by simp)

theorem jsonVal_obj_head {f : Nat} {cs : List Char} {ms : List (String × Json)}
    {rest : List Char} (h : jsonVal f cs = some (.obj ms, rest)) :
    ∃ r, skipJ cs = '{' :: r := by
  cases f with
  | zero => exact absurd h (by simp [jsonVal])
  | succ f =>
    rw [jsonVal] at h
    cases heq : skipJ cs with
    | nil => rw [heq] at h; exact absurd h (by simp)
    | cons c r =>
      simp only [heq] at h
      refine ⟨r, ?_⟩
      by_cases h1 : c = '{'
      · rw [h1]
      exfalso
      by_cases hn : c = 'n'
      · rw [if_pos hn] at h; split at h <;> simp_all
      rw [if_neg hn] at h
      by_cases ht : c = 't'
      · rw [if_pos ht] at h; split at h <;> simp_all
      rw [if_neg ht] at h
      by_cases hf : c = 'f'
      · rw [if_pos hf] at h; split at h <;> simp_all
      rw [if_neg hf] at h
      by_cases hq : c = '"'
      · rw [if_pos hq] at h; split at h <;> simp_all
      rw [if_neg hq] at h
      by_cases hb : c = '['
      · rw [if_pos hb] at h
        split at h <;> try simp_all
        all_goals (split at h <;> try simp_all)
        all_goals (split at h <;> simp_all)
      rw [if_neg hb, if_neg h1] at h
      split at h <;> try simp_all
      all_goals (split at h <;> simp_all)

theorem jsonVal_head_obj {f : Nat} {cs : List Char} {v : Json}
    {rest r0 : List Char} (h : jsonVal f cs = some (v, rest))
    (hh : skipJ cs = '{' :: r0) : ∃ ms, v = Json.obj ms := by
  cases f with
  | zero => exact absurd h (by simp [jsonVal])
  | succ f =>
    rw [jsonVal] at h
    simp only [hh] at h
    rw [if_neg (by decide : ¬('{' : Char) = 'n'), if_neg (by decide : ¬('{' : Char) = 't'),
      if_neg (by decide : ¬('{' : Char) = 'f'), if_neg (by decide : ¬('{' : Char) = '"'),
      if_neg (by decide : ¬('{' : Char) = '[')] at h
    rw [if_pos trivial] at h
    split at h
    · exact absurd h (by simp)
    split at h
    · simp only [Option.some.injEq, Prod.mk.injEq] at h
      exact ⟨[], h.1.symm⟩
    split at h
    · simp only [Option.some.injEq, Prod.mk.injEq] at h
      exact ⟨_, h.1.symm⟩
    · exact absurd h (by simp)

theorem getField_not_obj {j : Json} (h : ∀ ms, j ≠ Json.obj ms) (key : String) :
    getField j key = none := by
  cases j <;> first | rfl | exact absurd rfl (h _)

theorem intentOfJson_obj {j : Json} {x : ParsedResponse}
    (h : intentOfJson j = some x) : ∃ ms, j = Json.obj ms := by
  by_cases ho : ∃ ms, j = Json.obj ms
  · exact ho
  · exfalso
    have hg : ∀ key, getField j key = none :=
      getField_not_obj (fun ms hms => ho ⟨ms, hms⟩)
    rw [intentOfJson, hg, hg] at h
    simp at h

theorem intentOfJson_not_obj {j : Json} (h : ∀ ms, j ≠ Json.obj ms) :
    intentOfJson j = none := by
  have hg : ∀ key, getField j key = none := getField_not_obj h
  rw [intentOfJson, hg, hg]
  simp

theorem stringMk_toList (l : List Char) : (⟨l⟩ : String).toList = l := rfl

theorem string_eta (s : String) : (⟨s.toList⟩ : String) = s := rfl

theorem containsL_false_of_infix {pat a b : List Char} (h : containsL pat b = false)
    (hab : a <:+: b) : containsL pat a = false := by
  cases hc : containsL pat a with
  | false => rfl
  | true =>
    exfalso
    have hinf : pat <:+: b := ((containsL_iff pat a).mp hc).trans hab
    rw [(containsL_iff pat b).mpr hinf] at h
    cases h

theorem containsL_fence3_false {cs : List Char} (h : ∀ ch ∈ cs, ch ≠ '`') :
    containsL fence3 cs = false := by
  cases hc : containsL fence3 cs with
  | false => rfl
  | true =>
    exfalso
    have hinf := (containsL_iff fence3 cs).mp hc
    obtain ⟨s, t, hst⟩ := hinf
    have hm : '`' ∈ cs := by
      rw [← hst]
      have : ('`' : Char) ∈ fence3 := by decide
      simp [this]
    exact h _ hm rfl

theorem codeBlockCapture_none : ∀ {cs : List Char}, containsL fence3 cs = false →
    codeBlockCapture cs = none
  | [], _ => rfl
  | c :: rest, h => by
    rw [containsL] at h
    rcases Bool.or_eq_false_iff.mp h with ⟨hp, hr⟩
    rw [codeBlockCapture, if_neg (by simp [hp])]
    exact codeBlockCapture_none hr

theorem splitAtTicks_clean : ∀ (a : List Char) (b : List Char),
    (∀ ch ∈ a, ch ≠ '`') → splitAtTicks (a ++ fence3 ++ b) = some (a, b)
  | [], b, _ => by
    have hf : fence3 = '`' :: '`' :: '`' :: [] := rfl
    rw [List.nil_append, hf]
    simp only [List.cons_append, List.nil_append]
    rw [splitAtTicks, if_pos (by simp [isPrefixL, hf])]
    rfl
  | x :: a, b, h => by
    have hx : x ≠ '`' := h x (by simp)
    have hpre : isPrefixL fence3 (x :: (a ++ fence3 ++ b)) = false := by
      have hf : fence3 = '`' :: '`' :: '`' :: [] := rfl
      rw [hf, isPrefixL]
      simp [Ne.symm hx]
    simp only [List.cons_append]
    rw [splitAtTicks, if_neg (by simp only [hpre]; simp)]
    rw [splitAtTicks_clean a b (fun ch hc => h ch (by simp [hc]))]
    rfl

theorem firstSeg_append_nl {a : List Char} (b : List Char)
    (ha : ∀ c ∈ a, c ≠ '\n') (hr : a.getLast? ≠ some '\r') :
    firstSeg (a ++ '\n' :: b) = a := by
  have ht : (a ++ '\n' :: b).takeWhile (fun c => !(c = '\n')) = a := by
    rw [takeWhile_append_all _ (fun c hc => by simp [ha c hc])]
    simp [List.takeWhile_cons]
  rw [firstSeg, if_pos (by simp), ht, if_neg hr]

theorem firstSeg_no_nl {cs : List Char} (h : ¬ cs.any (fun c => c = '\n') = true) :
    firstSeg cs = cs := by
  rw [firstSeg, if_neg h]

theorem firstSeg_prefix (cs : List Char) : firstSeg cs <+: cs := by
  rw [firstSeg]
  by_cases hn : cs.any (fun c => c = '\n') = true
  · rw [if_pos hn]
    by_cases hl : (cs.takeWhile (fun c => !(c = '\n'))).getLast? = some '\r'
    · rw [if_pos hl]
      exact (List.dropLast_prefix _).trans (List.takeWhile_prefix _)
    · rw [if_neg hl]
      exact List.takeWhile_prefix _
  · rw [if_neg hn]

theorem firstSeg_head {cs : List Char} {a : Char} (h : cs.head? = some a)
    (ha : isSpaceJS a = false) : (firstSeg cs).head? = some a := by
  cases cs with
  | nil => simp at h
  | cons c r =>
    simp only [List.head?_cons, Option.some.injEq] at h
    subst h
    rw [firstSeg]
    by_cases hn : (c :: r).any (fun x => x = '\n') = true
    · rw [if_pos hn]
      have hna : ¬(c = '\n') := fun hh => by subst hh; simp [isSpaceJS] at ha
      have htk : List.takeWhile (fun x => !(x = '\n')) (c :: r)
          = c :: List.takeWhile (fun x => !(x = '\n')) r := by
        rw [List.takeWhile_cons, if_pos (by simp [hna])]
      rw [htk]
      by_cases hl : (c :: List.takeWhile (fun x => !(x = '\n')) r).getLast? = some '\r'
      · rw [if_pos hl]
        cases htk2 : List.takeWhile (fun x => !(x = '\n')) r with
        | nil =>
          exfalso
          rw [htk2] at hl
          simp at hl
          subst hl
          simp [isSpaceJS] at ha
        | cons y ys =>
          simp [List.dropLast]
      · rw [if_neg hl]
        simp
    · rw [if_neg hn]
      simp

theorem mem_of_getLast?_eq : ∀ {l : List Char} {c : Char}, l.getLast? = some c → c ∈ l
  | [], _, h => by simp at h
  | [x], c, h => by
    simp at h
    simp [h]
  | x :: y :: r, c, h => by
    rw [List.getLast?_cons_cons] at h
    exact List.mem_cons_of_mem _ (mem_of_getLast?_eq h)

theorem parseOneJsonObject_some {s : String} {x : ParsedResponse}
    (h : parseOneJsonObject s = some x) :
    ∃ j, parseJson s = some j ∧ intentOfJson j = some x := by
  rw [parseOneJsonObject] at h
  cases hp : parseJson s with
  | none => rw [hp] at h; exact absurd h (by simp)
  | some j =>
    rw [hp] at h
    exact ⟨j, rfl, h⟩

theorem parseOneJsonObject_none {s : String} (h : parseJsonL s.toList = none) :
    parseOneJsonObject s = none := by
  rw [parseOneJsonObject]
  have hp : parseJson s = none := h
  rw [hp]

theorem trimLeftL_trimL (cs : List Char) : trimLeftL (trimL cs) = trimL cs := by
  cases h : trimL cs with
  | nil => rfl
  | cons a as =>
    have hne : trimL cs ≠ [] := by rw [h]; simp
    have hh : (trimL cs).head? = (trimLeftL cs).head? := trimRightL_head hne
    rw [h] at hh
    cases htl : trimLeftL cs with
    | nil => rw [htl] at hh; simp at hh
    | cons b bs =>
      rw [htl] at hh
      simp only [List.head?_cons, Option.some.injEq] at hh
      have hb : isSpaceJS b = false := head_dropWhile_not _ _ htl
      rw [trimLeftL, List.dropWhile_cons, if_neg (by rw [← hh] at hb; simp [hb])]

/-- C7, amended form: when the raw output is a JSON-object first line followed
by further non-blank text, with no code fence anywhere, the parser returns the
intent encoded by the (trimmed) first line. -/
theorem C7_first_line_priority (l1 rest2 : String) (i : ParsedResponse)
    (hfence : containsS "```" (l1 ++ "\n" ++ rest2) = false)
    (hline : ∀ c ∈ l1.toList, c ≠ '\n' ∧ c ≠ '\r')
    (hl1 : parseOneJsonObject (trimS l1) = some i)
    (hrest : trimL rest2.toList ≠ []) :
    parseToolResponse (l1 ++ "\n" ++ rest2) = some i := by
  obtain ⟨j, hpj, hint⟩ := parseOneJsonObject_some hl1
  have hpj' : parseJsonL (trimL l1.toList) = some j := hpj
  obtain ⟨r0, hval, hr0⟩ := parseJsonL_some hpj'
  obtain ⟨ms, hj⟩ := intentOfJson_obj hint
  subst hj
  have hraw : (l1 ++ "\n" ++ rest2).toList = l1.toList ++ '\n' :: rest2.toList := by
    rw [toList_append, toList_append]
    simp
  set l1cs := l1.toList with hl1cs
  set r2cs := rest2.toList with hr2cs
  set A := trimL l1cs with hA
  have hAne : A ≠ [] := by
    intro hnil
    rw [hnil] at hval
    have h0 : jsonVal (([] : List Char).length + 1) [] = none := by
      rw [jsonVal]
      simp [skipJ]
    rw [h0] at hval
    cases hval
  have h6 : trimLeftL l1cs ≠ [] := by
    intro hnil
    exact hAne (by rw [hA, trimL, hnil]; rfl)
  have hmemL : ∀ c, c ∈ trimLeftL l1cs → c ∈ l1cs := by
    intro c hc
    obtain ⟨u, hu, _⟩ := trimLeft_decomp l1cs
    rw [hu]
    exact List.mem_append.mpr (Or.inr hc)
  have hstep1 : trimLeftL (l1cs ++ '\n' :: r2cs) = trimLeftL l1cs ++ '\n' :: r2cs :=
    dropWhile_append_ne _ h6
  have hQr : trimRightL r2cs ≠ [] := by
    intro hnil
    exact hrest (trimL_eq_nil_iff.mpr (trimRightL_eq_nil_iff.mp hnil))
  have hQne : trimRightL ('\n' :: r2cs) ≠ [] := by
    intro hnil
    have hall := trimRightL_eq_nil_iff.mp hnil
    exact hQr (trimRightL_eq_nil_iff.mpr (fun c hc => hall c (by simp [hc])))
  have hQcons : trimRightL ('\n' :: r2cs) = '\n' :: trimRightL r2cs := by
    have h1 := trimRightL_ne_nil_append (b := r2cs) ['\n'] hQr
    simpa using h1
  obtain ⟨w, hwA, hws⟩ := trimRight_decomp (trimLeftL l1cs)
  have ht : trimL (l1cs ++ '\n' :: r2cs)
      = A ++ (w ++ '\n' :: trimRightL r2cs) := by
    rw [trimL, hstep1, trimRightL_ne_nil_append _ hQne, hQcons]
    conv_lhs => rw [hwA]
    simp [trimL]
    rw [hA, trimL]
  set suf := w ++ '\n' :: trimRightL r2cs with hsuf
  set t := trimL (l1cs ++ '\n' :: r2cs) with htdef
  have hfT : containsL fence3 t = false := by
    have hfr : containsL fence3 (l1cs ++ '\n' :: r2cs) = false := by
      have he : containsS "```" (l1 ++ "\n" ++ rest2)
          = containsL fence3 ((l1 ++ "\n" ++ rest2).toList) := rfl
      rw [he, hraw] at hfence
      exact hfence
    exact containsL_false_of_infix hfr (htdef ▸ trimL_infix _)
  have hcap : codeBlockCapture t = none := codeBlockCapture_none hfT
  have htAS : t = A ++ suf := htdef.trans ht
  have hvt : jsonVal (t.length + 1) t = some (Json.obj ms, r0 ++ suf) := by
    have h1 : jsonVal (A.length + 1) (A ++ suf) = some (Json.obj ms, r0 ++ suf) :=
      jsonVal_append _ _ _ _ _ hval (Or.inr (Or.inr rfl))
    have h2 : A.length + 1 ≤ (A ++ suf).length + 1 := by
      simp [List.length_append]
    have h3 := jsonVal_mono _ _ h2 _ _ _ h1
    rw [htAS]
    exact h3
  have hres : skipJ (r0 ++ suf) ≠ [] := by
    have hall : ∀ c ∈ r0, jsonWs c = true := List.dropWhile_eq_nil_iff.mp hr0
    rw [skipJ, dropWhile_append_all _ hall]
    obtain ⟨cl, hcl, hclns⟩ := trimRightL_last hQr
    have hclm : cl ∈ suf := by
      rw [hsuf]
      have hm : cl ∈ trimRightL r2cs := mem_of_getLast?_eq hcl
      simp [hm]
    intro hnil
    have hj2 := List.dropWhile_eq_nil_iff.mp hnil cl hclm
    rw [jsonWs_space hj2] at hclns
    cases hclns
  have hwholeL : parseJsonL t = none := by
    rw [parseJsonL]
    simp only [hvt]
    rw [if_neg (by simp [hres])]
  have hwhole : parseOneJsonObject (⟨t⟩ : String) = none :=
    parseOneJsonObject_none (by rw [stringMk_toList]; exact hwholeL)
  have hT2 : t = trimLeftL l1cs ++ '\n' :: trimRightL r2cs := by
    rw [htdef, trimL, hstep1, trimRightL_ne_nil_append _ hQne, hQcons]
  have hfs : firstSeg t = trimLeftL l1cs := by
    rw [hT2]
    refine firstSeg_append_nl _ (fun c hc => (hline c (hmemL c hc)).1) ?_
    intro heq
    exact (hline '\r' (hmemL _ (mem_of_getLast?_eq heq))).2 rfl
  have hfl : trimL (firstSeg t) = A := by
    rw [hfs, trimL_trimLeftL]
  obtain ⟨rA, hskA⟩ := jsonVal_obj_head hval
  have hAtl : trimLeftL A = '{' :: rA := skipJ_eq_trimLeft_of_head A hskA (by decide)
  have hAid : trimLeftL A = A := by rw [hA]; exact trimLeftL_trimL l1cs
  have hAcons : A = '{' :: rA := by rw [← hAid]; exact hAtl
  have hhead : A.headD ' ' = '{' := by rw [hAcons]; rfl
  have hfirst : parseOneJsonObject (⟨A⟩ : String) = some i := hl1
  simp only [parseToolResponse]
  rw [hraw, ← htdef]
  simp only [hcap, hwhole, hfl, if_pos hhead, hfirst]

theorem C7_witness :
    parseToolResponse ("\x7b\"type\":\"final_answer\",\"content\":\"ok\"\x7d" ++ "\n"
      ++ "\x7b\"type\":\"final_answer\",\"content\":\"later\"\x7d")
    = some (.final_answer "ok") :=
  C7_first_line_priority _ _ _ (by decide) (by decide) (by decide) (by decide)

theorem C7_counterexample :
    parseOneJsonObject (trimS "\x7b\"type\":\"final_answer\",\"content\":\"a``` b\"\x7d")
      = some (.final_answer "a``` b") ∧
    parseToolResponse ("\x7b\"type\":\"final_answer\",\"content\":\"a``` b\"\x7d" ++ "\n"
      ++ "\x7b\"type\":\"final_answer\",\"content\":\"c``` d\"\x7d") = none ∧
    parseToolResponse ("\x7b\"type\":\"final_answer\",\"content\":\"a``` b\"\x7d" ++ "\n"
      ++ "\x7b\"type\":\"final_answer\",\"content\":\"no ticks\"\x7d")
      = some (.final_answer "a``` b") :=
  ⟨by decide, by decide, by decide⟩

theorem balancedFrom_shape : ∀ (d : Nat) (xs r : List Char),
    balancedFrom d xs = some r → r ≠ [] ∧ r.getLast? = some '}' ∧ r <+: xs
  | _, [], r, h => by simp [balancedFrom] at h
  | d, x :: rest, r, h => by
    rw [balancedFrom] at h
    by_cases h1 : x = '{'
    · rw [if_pos h1] at h
      cases hb : balancedFrom (d + 1) rest with
      | none => rw [hb] at h; simp at h
      | some l =>
        rw [hb] at h
        simp only [Option.map_some', Option.some.injEq] at h
        subst h
        obtain ⟨hne, hlast, hpre⟩ := balancedFrom_shape (d + 1) rest l hb
        refine ⟨by simp, ?_, List.cons_prefix_cons.mpr ⟨rfl, hpre⟩⟩
        cases l with
        | nil => exact absurd rfl hne
        | cons y ys => rw [List.getLast?_cons_cons]; exact hlast
    · rw [if_neg h1] at h
      by_cases h2 : x = '}'
      · rw [if_pos h2] at h
        by_cases h3 : d = 1
        · rw [if_pos h3] at h
          simp only [Option.some.injEq] at h
          subst h
          exact ⟨by simp, by simp [h2], List.cons_prefix_cons.mpr ⟨rfl, List.nil_prefix⟩⟩
        · rw [if_neg h3] at h
          cases hb : balancedFrom (d - 1) rest with
          | none => rw [hb] at h; simp at h
          | some l =>
            rw [hb] at h
            simp only [Option.map_some', Option.some.injEq] at h
            subst h
            obtain ⟨hne, hlast, hpre⟩ := balancedFrom_shape (d - 1) rest l hb
            refine ⟨by simp, ?_, List.cons_prefix_cons.mpr ⟨rfl, hpre⟩⟩
            cases l with
            | nil => exact absurd rfl hne
            | cons y ys => rw [List.getLast?_cons_cons]; exact hlast
      · rw [if_neg h2] at h
        cases hb : balancedFrom d rest with
        | none => rw [hb] at h; simp at h
        | some l =>
          rw [hb] at h
          simp only [Option.map_some', Option.some.injEq] at h
          subst h
          obtain ⟨hne, hlast, hpre⟩ := balancedFrom_shape d rest l hb
          refine ⟨by simp, ?_, List.cons_prefix_cons.mpr ⟨rfl, hpre⟩⟩
          cases l with
          | nil => exact absurd rfl hne
          | cons y ys => rw [List.getLast?_cons_cons]; exact hlast

theorem balancedFrom_append : ∀ (d : Nat) (xs ys r : List Char),
    balancedFrom d xs = some r → balancedFrom d (xs ++ ys) = some r
  | _, [], _, r, h => by simp [balancedFrom] at h
  | d, x :: rest, ys, r, h => by
    rw [balancedFrom] at h
    rw [List.cons_append, balancedFrom]
    by_cases h1 : x = '{'
    · rw [if_pos h1] at h ⊢
      cases hb : balancedFrom (d + 1) rest with
      | none => rw [hb] at h; simp at h
      | some l =>
        rw [hb] at h
        rw [balancedFrom_append (d + 1) rest ys l hb]
        exact h
    · rw [if_neg h1] at h ⊢
      by_cases h2 : x = '}'
      · rw [if_pos h2] at h ⊢
        by_cases h3 : d = 1
        · rw [if_pos h3] at h ⊢
          exact h
        · rw [if_neg h3] at h ⊢
          cases hb : balancedFrom (d - 1) rest with
          | none => rw [hb] at h; simp at h
          | some l =>
            rw [hb] at h
            rw [balancedFrom_append (d - 1) rest ys l hb]
            exact h
      · rw [if_neg h2] at h ⊢
        cases hb : balancedFrom d rest with
        | none => rw [hb] at h; simp at h
        | some l =>
          rw [hb] at h
          rw [balancedFrom_append d rest ys l hb]
          exact h

theorem trimLeftL_eq_self {cs : List Char} {a : Char} (h1 : cs.head? = some a)
    (ha : isSpaceJS a = false) : trimLeftL cs = cs := by
  cases cs with
  | nil => rfl
  | cons x r =>
    simp only [List.head?_cons, Option.some.injEq] at h1
    subst h1
    rw [trimLeftL, List.dropWhile_cons, if_neg (by simp [ha])]

theorem trimRightL_eq_self {cs : List Char} {b : Char} (h2 : cs.getLast? = some b)
    (hb : isSpaceJS b = false) : trimRightL cs = cs := by
  cases hrev : cs.reverse with
  | nil =>
    have : cs = [] := by
      have h3 := congrArg List.reverse hrev
      simpa using h3
    rw [trimRightL, hrev, this]
    rfl
  | cons x r =>
    have hx : x = b := by
      rw [← List.head?_reverse] at h2
      rw [hrev] at h2
      simpa using h2
    rw [trimRightL, hrev, List.dropWhile_cons, if_neg (by simp [hx, hb]), ← hrev]
    exact cs.reverse_reverse

theorem trimL_eq_self {cs : List Char} {a b : Char} (h1 : cs.head? = some a)
    (ha : isSpaceJS a = false) (h2 : cs.getLast? = some b)
    (hb : isSpaceJS b = false) : trimL cs = cs := by
  rw [trimL, trimLeftL_eq_self h1 ha, trimRightL_eq_self h2 hb]

theorem mem_trimLeftL {c : Char} {cs : List Char} (h : c ∈ trimLeftL cs) : c ∈ cs := by
  obtain ⟨u, hu, _⟩ := trimLeft_decomp cs
  rw [hu]
  exact List.mem_append.mpr (Or.inr h)

theorem mem_trimRightL {c : Char} {cs : List Char} (h : c ∈ trimRightL cs) : c ∈ cs := by
  obtain ⟨w, hw, _⟩ := trimRight_decomp cs
  rw [hw]
  exact List.mem_append.mpr (Or.inl h)

theorem extract_self {obj : String} (hext : extractFirstJsonObject obj = some obj) :
    (∃ tl, obj.toList = '{' :: tl) ∧ obj.toList.getLast? = some '}' ∧
    balancedFrom 0 obj.toList = some obj.toList := by
  rw [extractFirstJsonObject] at hext
  cases hel : extractFirstJsonObjectL obj.toList with
  | none => rw [hel] at hext; simp at hext
  | some l =>
    rw [hel] at hext
    simp only [Option.map_some', Option.some.injEq] at hext
    have hl : l = obj.toList := by
      have h2 := congrArg String.toList hext
      exact h2
    subst hl
    rw [extractFirstJsonObjectL] at hel
    obtain ⟨hne, hlast, hpre⟩ := balancedFrom_shape _ _ _ hel
    have hdw : obj.toList.dropWhile (fun c => !(c = '{')) = obj.toList := by
      have hsuf : obj.toList.dropWhile (fun c => !(c = '{')) <:+ obj.toList :=
        List.dropWhile_suffix _
      exact (hpre.eq_of_length (Nat.le_antisymm hpre.length_le hsuf.length_le)).symm
    refine ⟨?_, hlast, by rw [hdw] at hel; exact hel⟩
    cases hobj : obj.toList with
    | nil => exact absurd hobj hne
    | cons x tl =>
      refine ⟨tl, ?_⟩
      rw [hobj] at hdw
      have hx := head_dropWhile_not _ _ hdw
      simp only [Bool.not_eq_false', decide_eq_true_eq] at hx
      rw [hx]

theorem codeBlockCapture_fenced (mid : List Char) (hmid : ∀ ch ∈ mid, ch ≠ '`') :
    codeBlockCapture
      ('`' :: '`' :: '`' :: 'j' :: 's' :: 'o' :: 'n' :: '\n' ::
        (mid ++ '\n' :: '`' :: '`' :: '`' :: []))
      = some ('\n' :: (mid ++ ['\n'])) := by
  have hf3 : fence3 = '`' :: '`' :: '`' :: [] := rfl
  have hjt : jsonTag = 'j' :: 's' :: 'o' :: 'n' :: [] := rfl
  have hclean : ∀ ch ∈ '\n' :: (mid ++ ['\n']), ch ≠ '`' := by
    intro ch hch
    rcases List.mem_cons.mp hch with h | h
    · subst h; decide
    · rcases List.mem_append.mp h with h2 | h2
      · exact hmid ch h2
      · simp at h2; subst h2; decide
  have heq : ('\n' : Char) :: (mid ++ '\n' :: '`' :: '`' :: '`' :: []) =
      ('\n' :: (mid ++ ['\n'])) ++ fence3 ++ [] := by
    simp [hf3]
  have hsp := splitAtTicks_clean ('\n' :: (mid ++ ['\n'])) [] hclean
  have hsp2 : splitAtTicks ('\n' :: (mid ++ '\n' :: '`' :: '`' :: '`' :: []))
      = some ('\n' :: (mid ++ ['\n']), []) := by
    rw [heq]
    exact hsp
  rw [codeBlockCapture, if_pos (by simp [isPrefixL, hf3])]
  show (match splitAtTicks ('\n' :: (mid ++ '\n' :: '`' :: '`' :: '`' :: [])) with
      | some (captured, _) => some captured
      | none => codeBlockCapture
          ('`' :: '`' :: 'j' :: 's' :: 'o' :: 'n' :: '\n' ::
            (mid ++ '\n' :: '`' :: '`' :: '`' :: []))) = some ('\n' :: (mid ++ ['\n']))
  simp only [hsp2]

theorem getLast?_append_right {a b : List Char} (h : b ≠ []) :
    (a ++ b).getLast? = b.getLast? := by
  rw [← List.head?_reverse, ← List.head?_reverse, List.reverse_append]
  cases hb : b.reverse with
  | nil =>
    exfalso
    exact h (by simpa using congrArg List.reverse hb)
  | cons x r => rfl

/-- C8, amended form: a well-formed `final_answer` object is honored when bare,
when wrapped in a fenced code block, and when preceded by non-blank brace-free
prose (with backtick-free text throughout). -/
theorem C8_single_final_answer (obj pre post c : String)
    (hparse : parseOneJsonObject obj = some (.final_answer c))
    (hext : extractFirstJsonObject obj = some obj)
    (hobt : ∀ ch ∈ obj.toList, ch ≠ '`') :
    parseToolResponse obj = some (.final_answer c)
    ∧ parseToolResponse ("```json\n" ++ obj ++ "\n```") = some (.final_answer c)
    ∧ ((∀ ch ∈ pre.toList, ch ≠ '{' ∧ ch ≠ '`') →
        (∀ ch ∈ post.toList, ch ≠ '`') →
        trimL pre.toList ≠ [] →
        parseToolResponse (pre ++ obj ++ post) = some (.final_answer c)) := by
  obtain ⟨⟨tl, hobjcons⟩, hlast, hbal⟩ := extract_self hext
  have hheadq : obj.toList.head? = some '{' := by rw [hobjcons]; rfl
  have htrim : trimL obj.toList = obj.toList :=
    trimL_eq_self hheadq (by decide) hlast (by decide)
  have hfree : containsL fence3 obj.toList = false := containsL_fence3_false hobt
  refine ⟨?_, ?_, ?_⟩
  · -- bare
    simp only [parseToolResponse]
    rw [htrim]
    simp only [codeBlockCapture_none hfree]
    rw [string_eta]
    simp only [hparse]
  · -- fenced
    have hraw20 : ("```json\n" ++ obj ++ "\n```").toList
        = "```json\n".toList ++ obj.toList ++ "\n```".toList := by
      rw [toList_append, toList_append]
    have hh2 : ("```json\n" ++ obj ++ "\n```").toList.head? = some '`' := by
      rw [hraw20]; rfl
    have hl2 : ("```json\n" ++ obj ++ "\n```").toList.getLast? = some '`' := by
      rw [hraw20, getLast?_append_right (by decide)]
      decide
    have htrim2 : trimL (("```json\n" ++ obj ++ "\n```").toList)
        = ("```json\n" ++ obj ++ "\n```").toList :=
      trimL_eq_self hh2 (by decide) hl2 (by decide)
    have hraw2 : ("```json\n" ++ obj ++ "\n```").toList
        = '`' :: '`' :: '`' :: 'j' :: 's' :: 'o' :: 'n' :: '\n' ::
          (obj.toList ++ '\n' :: '`' :: '`' :: '`' :: []) := by
      rw [hraw20]
      show ('`' :: '`' :: '`' :: 'j' :: 's' :: 'o' :: 'n' :: '\n' :: []) ++ obj.toList
          ++ ('\n' :: '`' :: '`' :: '`' :: []) = _
      simp
    have hcaptrim : trimL ('\n' :: (obj.toList ++ ['\n'])) = obj.toList := by
      have hX : (obj.toList ++ ['\n']).head? = some '{' := by rw [hobjcons]; rfl
      have h1 : trimLeftL ('\n' :: (obj.toList ++ ['\n'])) = obj.toList ++ ['\n'] := by
        rw [trimLeftL, List.dropWhile_cons, if_pos (by decide)]
        exact trimLeftL_eq_self hX (by decide)
      rw [trimL, h1,
        trimRightL_all_space_append _ (by intro x hx; simp at hx; subst hx; rfl)]
      exact trimRightL_eq_self hlast (by decide)
    simp only [parseToolResponse]
    rw [htrim2, hraw2]
    simp only [codeBlockCapture_fenced obj.toList hobt]
    rw [hcaptrim, string_eta]
    simp only [hparse]
  · -- surrounded by prose
    intro hpre hpost hpreNB
    obtain ⟨j, hpj, hint⟩ := parseOneJsonObject_some hparse
    have hpj' : parseJsonL obj.toList = some j := hpj
    obtain ⟨r0, hval, hr0⟩ := parseJsonL_some hpj'
    obtain ⟨ms, hj⟩ := intentOfJson_obj hint
    subst hj
    have hraw3 : (pre ++ obj ++ post).toList
        = pre.toList ++ (obj.toList ++ post.toList) := by
      rw [toList_append, toList_append, List.append_assoc]
    have hpreT : trimLeftL pre.toList ≠ [] := by
      intro hnil
      exact hpreNB (by rw [trimL, hnil]; rfl)
    obtain ⟨hp, ptl, hpcons⟩ : ∃ hp ptl, trimLeftL pre.toList = hp :: ptl := by
      cases hpT : trimLeftL pre.toList with
      | nil => exact absurd hpT hpreT
      | cons a b => exact ⟨a, b, rfl⟩
    have hpns : isSpaceJS hp = false := head_dropWhile_not _ _ hpcons
    have hpmem : hp ∈ pre.toList := mem_trimLeftL (by rw [hpcons]; simp)
    have hpnb : hp ≠ '{' := (hpre hp hpmem).1
    have hobjTR : trimRightL obj.toList = obj.toList :=
      trimRightL_eq_self hlast (by decide)
    have hobjTRne : trimRightL obj.toList ≠ [] := by
      rw [hobjTR, hobjcons]
      simp
    have hstepA : trimLeftL (pre.toList ++ (obj.toList ++ post.toList))
        = trimLeftL pre.toList ++ (obj.toList ++ post.toList) :=
      dropWhile_append_ne _ hpreT
    have hT3 : trimL (pre.toList ++ (obj.toList ++ post.toList))
        = trimLeftL pre.toList ++ (obj.toList ++ trimRightL post.toList) := by
      rw [trimL, hstepA]
      by_cases hc0 : trimRightL post.toList = []
      · have hallp := trimRightL_eq_nil_iff.mp hc0
        rw [← List.append_assoc, trimRightL_all_space_append _ hallp,
          trimRightL_ne_nil_append _ hobjTRne, hobjTR, hc0]
        simp
      · have hinner : trimRightL (obj.toList ++ post.toList)
            = obj.toList ++ trimRightL post.toList :=
          trimRightL_ne_nil_append _ hc0
        have hinner_ne : trimRightL (obj.toList ++ post.toList) ≠ [] := by
          rw [hinner, hobjcons]
          simp
        rw [trimRightL_ne_nil_append _ hinner_ne, hinner]
    have hTfree : ∀ ch ∈ trimL (pre.toList ++ (obj.toList ++ post.toList)), ch ≠ '`' := by
      intro ch hch
      rw [hT3] at hch
      rcases List.mem_append.mp hch with h1 | h1
      · exact (hpre ch (mem_trimLeftL h1)).2
      · rcases List.mem_append.mp h1 with h2 | h2
        · exact hobt ch h2
        · exact hpost ch (mem_trimRightL h2)
    have hcap3 : codeBlockCapture (trimL (pre.toList ++ (obj.toList ++ post.toList))) = none :=
      codeBlockCapture_none (containsL_fence3_false hTfree)
    have hpnw : jsonWs hp = false := by
      cases hjw : jsonWs hp with
      | false => rfl
      | true => rw [jsonWs_space hjw] at hpns; cases hpns
    have hskipT : skipJ (trimL (pre.toList ++ (obj.toList ++ post.toList)))
        = trimL (pre.toList ++ (obj.toList ++ post.toList)) := by
      conv_lhs => rw [hT3, hpcons, List.cons_append]
      rw [skipJ, List.dropWhile_cons, if_neg (by simp [hpnw])]
      rw [← List.cons_append, ← hpcons, ← hT3]
    have hb1 : parseOneJsonObject
        (⟨trimL (pre.toList ++ (obj.toList ++ post.toList))⟩ : String) = none := by
      rw [parseOneJsonObject]
      cases hpt : parseJson (⟨trimL (pre.toList ++ (obj.toList ++ post.toList))⟩ : String) with
      | none => rfl
      | some v =>
        show intentOfJson v = none
        apply intentOfJson_not_obj
        intro ms' hv
        subst hv
        have hpt' : parseJsonL (trimL (pre.toList ++ (obj.toList ++ post.toList)))
            = some (Json.obj ms') := hpt
        obtain ⟨rr, hvv, _⟩ := parseJsonL_some hpt'
        obtain ⟨rx, hsk⟩ := jsonVal_obj_head hvv
        rw [hskipT, hT3, hpcons, List.cons_append] at hsk
        simp only [List.cons.injEq] at hsk
        exact hpnb hsk.1
    have hheadT : (trimL (pre.toList ++ (obj.toList ++ post.toList))).head? = some hp := by
      rw [hT3, hpcons, List.cons_append]
      rfl
    have hfsh : (firstSeg (trimL (pre.toList ++ (obj.toList ++ post.toList)))).head? = some hp :=
      firstSeg_head hheadT hpns
    have hb2head : (trimL (firstSeg (trimL (pre.toList ++ (obj.toList ++ post.toList))))).headD ' '
        ≠ '{' := by
      rw [trimL, trimLeftL_eq_self hfsh hpns]
      by_cases hfl0 : trimRightL (firstSeg (trimL (pre.toList ++ (obj.toList ++ post.toList)))) = []
      · rw [hfl0]
        decide
      · have hh := trimRightL_head hfl0
        rw [hfsh] at hh
        cases hflc : trimRightL (firstSeg (trimL (pre.toList ++ (obj.toList ++ post.toList)))) with
        | nil => exact absurd hflc hfl0
        | cons y ys =>
          rw [hflc] at hh
          simp only [List.head?_cons, Option.some.injEq] at hh
          subst hh
          simpa using hpnb
    have hext3 : extractFirstJsonObjectL (trimL (pre.toList ++ (obj.toList ++ post.toList)))
        = some obj.toList := by
      rw [extractFirstJsonObjectL, hT3]
      rw [dropWhile_append_all _ (fun x hx => by simp [(hpre x (mem_trimLeftL hx)).1])]
      rw [hobjcons, List.cons_append, List.dropWhile_cons, if_neg (by simp)]
      rw [← List.cons_append, ← hobjcons]
      exact balancedFrom_append 0 obj.toList _ obj.toList hbal
    simp only [parseToolResponse]
    rw [hraw3]
    simp only [hcap3]
    simp only [hb1]
    simp only [if_neg hb2head]
    simp only [hext3]
    rw [string_eta]
    simp only [hparse]

theorem C8_witness :
    parseToolResponse "\x7b\"type\":\"final_answer\",\"content\":\"hi\"\x7d"
      = some (.final_answer "hi")
    ∧ parseToolResponse ("```json\n" ++ "\x7b\"type\":\"final_answer\",\"content\":\"hi\"\x7d"
        ++ "\n```") = some (.final_answer "hi")
    ∧ parseToolResponse ("Answer below: " ++ "\x7b\"type\":\"final_answer\",\"content\":\"hi\"\x7d"
        ++ " (end)") = some (.final_answer "hi") := by
  have H := C8_single_final_answer "\x7b\"type\":\"final_answer\",\"content\":\"hi\"\x7d"
    "Answer below: " " (end)" "hi" (by decide) (by decide) (by decide)
  exact ⟨H.1, H.2.1, H.2.2 (by decide) (by decide) (by decide)⟩

theorem C8_counterexample :
    parseOneJsonObject "\x7b\"type\":\"final_answer\",\"content\":\"hi\"\x7d"
      = some (.final_answer "hi") ∧
    extractFirstJsonObject "\x7b\"type\":\"final_answer\",\"content\":\"hi\"\x7d"
      = some "\x7b\"type\":\"final_answer\",\"content\":\"hi\"\x7d" ∧
    parseToolResponse ("See below: \x7b\n"
      ++ "\x7b\"type\":\"final_answer\",\"content\":\"hi\"\x7d") = none :=
  ⟨by decide, by decide, by decide⟩
